import Mathlib

/-!
Verification development for the buildkite-signed-pipeline signing /
verification engine.  The Go sources are shallowly embedded: decoded JSON
values (Go `any` trees produced by `encoding/json`) become the `JValue`
family below, Go maps become key/value spines (Go maps are unordered and
have unique keys; the spine order stands in for Go's iteration order, which
is noted wherever it matters), fallible functions return `Except GoErr`,
and Go runtime panics are modelled as the distinguished `GoErr.crash`
variant so that an aborting process is distinguishable from a returned
error.  Ambient process state read by the Go code (`os.Args`,
`runtime.GOOS`, `os.Getenv("BUILDKITE_BUILD_ID")`) is collected in `GoEnv`.
-/

deriving instance DecidableEq for Except

/-- Result of a fallible Go computation: `fail` models a returned `error`
value, `crash` models a runtime panic (the process aborts; a panic is never
wrapped by `fmt.Errorf` on the way out). -/
inductive GoErr where
  | fail (msg : String)
  | crash (msg : String)
  deriving DecidableEq, Repr

/-- Wrapping of a returned error with a message, as `fmt.Errorf("...%w")`
does.  A modelled panic is not an error value and passes through unchanged
(in Go it unwinds the stack instead of being returned). -/
def wrapFail (pre : String) : GoErr → GoErr
  | .fail msg => .fail (pre ++ msg)
  | .crash msg => .crash msg

mutual
/-- Decoded JSON value, the embedding of Go `any` trees produced by
`json.Unmarshal` (nil interface, bool, float64, string, `[]any`,
`map[string]any`).  Numbers are modelled as integers; no behaviour studied
here depends on non-integral numerics. -/
inductive JValue where
  | jnull
  | jbool (b : Bool)
  | jnum (n : Int)
  | jstr (s : String)
  | jarr (xs : JArr)
  | jobj (kvs : JObj)
  deriving DecidableEq, Repr
/-- Spine of a decoded JSON array (`[]any`). -/
inductive JArr where
  | nil
  | cons (hd : JValue) (tl : JArr)
  deriving DecidableEq, Repr
/-- Spine of a decoded JSON object (`map[string]any`).  Go maps have
unique keys; the spine order models Go's (unspecified) iteration order. -/
inductive JObj where
  | nil
  | cons (k : String) (v : JValue) (tl : JObj)
  deriving DecidableEq, Repr
end

/-- Build a `JArr` from a list of values. -/
def jarrOfList : List JValue → JArr
  | [] => .nil
  | v :: tl => .cons v (jarrOfList tl)

/-- List of elements of a `JArr`. -/
def jarrToList : JArr → List JValue
  | .nil => []
  | .cons v tl => v :: jarrToList tl

/-- Build a `JObj` spine from an association list (keys assumed distinct,
as in any Go map). -/
def jobjOfList : List (String × JValue) → JObj
  | [] => .nil
  | (k, v) :: tl => .cons k v (jobjOfList tl)

/-- Association list of a `JObj`. -/
def jobjToList : JObj → List (String × JValue)
  | .nil => []
  | .cons k v tl => (k, v) :: jobjToList tl

/-- Go map read `m[k]` (first matching key; Go maps have unique keys). -/
def objLookup : JObj → String → Option JValue
  | .nil, _ => none
  | .cons k' v tl, k => if k' = k then some v else objLookup tl k

/-- Go map write `m[k] = v`: replace the value under an existing key,
otherwise add the entry (placement in the spine is a modelling artefact;
Go maps are unordered). -/
def objSet : JObj → String → JValue → JObj
  | .nil, k, v => .cons k v .nil
  | .cons k' v' tl, k, v =>
    if k' = k then .cons k' v tl else .cons k' v' (objSet tl k v)

/-- Keys of a `JObj`, in spine order. -/
def objKeys : JObj → List String
  | .nil => []
  | .cons k _ tl => k :: objKeys tl

/-- Whether a key occurs in an association list. -/
def keyMem (k : String) : List (String × JValue) → Bool
  | [] => false
  | (k', _) :: tl => k' = k || keyMem k tl

/-- Rebuild a Go map from decoded object entries in text order with
last-occurrence-wins semantics, as sequential `m[k] = v` assignment during
`json.Unmarshal` produces.  An earlier entry overridden by a later
duplicate is dropped. -/
def objFromEntries : List (String × JValue) → JObj
  | [] => .nil
  | (k, v) :: tl =>
    if keyMem k tl then objFromEntries tl else .cons k v (objFromEntries tl)

/-- Byte-lexicographic comparison of character lists, the order
`sort.Strings` and Go string `<` use (UTF-8 byte order and code-point
order agree). -/
def lexLe : List Char → List Char → Bool
  | [], _ => true
  | _ :: _, [] => false
  | a :: as, b :: bs =>
    if a.toNat < b.toNat then true
    else if b.toNat < a.toNat then false
    else lexLe as bs

/-- Go string `<=` (byte-lexicographic). -/
def strLe (a b : String) : Bool := lexLe a.data b.data

/-- Characters treated as white space by Go's `strings.TrimSpace`
(`unicode.IsSpace`); the model covers the ASCII white-space characters,
which is the full set exercised here. -/
def goSpace (c : Char) : Bool :=
  c = ' ' || c = '\t' || c = '\n' || c = '\r' || c = '\x0b' || c = '\x0c'

/-- Model of `strings.TrimSpace`. -/
def goTrimSpace (s : String) : String :=
  ⟨((s.data.dropWhile goSpace).reverse.dropWhile goSpace).reverse⟩

/-- Model of `strings.HasPrefix`. -/
def goHasPrefixStr (s pre : String) : Bool := pre.data.isPrefixOf s.data

/-- Model of `strings.HasSuffix`. -/
def goHasSuffixStr (s suf : String) : Bool := suf.data.isSuffixOf s.data

/-- Model of `strings.TrimSuffix`: drop the suffix when present, otherwise
return the string unchanged. -/
def goTrimSuffix (s suf : String) : String :=
  if goHasSuffixStr s suf then ⟨s.data.take (s.data.length - suf.data.length)⟩
  else s

/-- Model of `strings.ContainsAny`: does `s` contain any character of
`chars`? -/
def goContainsAny (s chars : String) : Bool :=
  s.data.any (fun c => chars.data.contains c)

/-- Model of `strings.EqualFold` restricted to ASCII case folding (the
only comparison made is against the literal `"steps"`). -/
def goEqualFold (a b : String) : Bool :=
  a.data.map Char.toLower == b.data.map Char.toLower

/-- Model of `strings.Join(parts, "\n")` on the character level. -/
def joinNL : List String → List Char
  | [] => []
  | [s] => s.data
  | s :: tl => s.data ++ '\n' :: joinNL tl

/-- Ambient process state read by the Go code: the basename of
`os.Args[0]` (the tool's executable name), whether `runtime.GOOS` is
`windows`, and the value of `os.Getenv("BUILDKITE_BUILD_ID")`. -/
structure GoEnv where
  argv0Base : String
  goosWindows : Bool
  buildID : String
  deriving Repr

/-- Decimal digit character for a value below 10 (clamping above). -/
def digitChar (d : Nat) : Char :=
  if d = 0 then '0' else if d = 1 then '1' else if d = 2 then '2'
  else if d = 3 then '3' else if d = 4 then '4' else if d = 5 then '5'
  else if d = 6 then '6' else if d = 7 then '7' else if d = 8 then '8' else '9'

/-- Lower-case hexadecimal digit character for a value below 16
(clamping above). -/
def hexDigit (n : Nat) : Char :=
  if n < 10 then digitChar n
  else if n = 10 then 'a' else if n = 11 then 'b' else if n = 12 then 'c'
  else if n = 13 then 'd' else if n = 14 then 'e' else 'f'

/-- Decimal digits of a natural number (most significant first), with
explicit fuel; `fuel ≥ n` always suffices. -/
def natDigitsAux : Nat → Nat → List Char
  | 0, _ => []
  | fuel + 1, n =>
    if n < 10 then [digitChar n]
    else natDigitsAux fuel (n / 10) ++ [digitChar (n % 10)]

/-- Decimal digits of a natural number. -/
def natDigits (n : Nat) : List Char := natDigitsAux (n + 1) n

/-- Decimal rendering of an integer as `encoding/json` emits it for
integral numbers. -/
def intChars (i : Int) : List Char :=
  if i < 0 then '-' :: natDigits i.natAbs else natDigits i.toNat

/-- Escaping of one character inside a JSON string, as Go's
`json.Marshal` performs it (standard JSON escapes plus the HTML-safe
escapes for `<`, `>`, `&` and the U+2028/U+2029 escapes). -/
def escChar (c : Char) : List Char :=
  if c = '"' then ['\\', '"']
  else if c = '\\' then ['\\', '\\']
  else if c = '\n' then ['\\', 'n']
  else if c = '\r' then ['\\', 'r']
  else if c = '\t' then ['\\', 't']
  else if c = '<' then ['\\', 'u', '0', '0', '3', 'c']
  else if c = '>' then ['\\', 'u', '0', '0', '3', 'e']
  else if c = '&' then ['\\', 'u', '0', '0', '2', '6']
  else if c.toNat < 32 then
    ['\\', 'u', '0', '0', hexDigit (c.toNat / 16), hexDigit (c.toNat % 16)]
  else if c.toNat = 0x2028 then ['\\', 'u', '2', '0', '2', '8']
  else if c.toNat = 0x2029 then ['\\', 'u', '2', '0', '2', '9']
  else [c]

/-- Serialized JSON string literal (quotes included) for `s`. -/
def serStr (s : String) : List Char :=
  '"' :: s.data.flatMap escChar ++ ['"']

/-- Ordering of object entries by key used when serializing a Go map:
`json.Marshal` emits map keys in `sort.Strings` order. -/
def pairLe (a b : String × JValue) : Prop := lexLe a.1.data b.1.data = true

instance : DecidableRel pairLe := fun a b =>
  inferInstanceAs (Decidable (lexLe a.1.data b.1.data = true))

mutual
/-- Serialization of a `JValue` to JSON text without any reordering of
object entries (`deepSortKeys` below supplies the key ordering that
`json.Marshal` applies to maps). -/
def serVal : JValue → List Char
  | .jnull => ['n', 'u', 'l', 'l']
  | .jbool true => ['t', 'r', 'u', 'e']
  | .jbool false => ['f', 'a', 'l', 's', 'e']
  | .jnum i => intChars i
  | .jstr s => serStr s
  | .jarr xs => '[' :: serArrTail xs
  | .jobj kvs => '\x7b' :: serObjTail kvs
/-- Serialization of the elements of an array together with the closing
bracket. -/
def serArrTail : JArr → List Char
  | .nil => [']']
  | .cons v .nil => serVal v ++ [']']
  | .cons v tl => serVal v ++ ',' :: serArrTail tl
/-- Serialization of the entries of an object together with the closing
brace. -/
def serObjTail : JObj → List Char
  | .nil => ['\x7d']
  | .cons k v .nil => serStr k ++ ':' :: serVal v ++ ['\x7d']
  | .cons k v tl => serStr k ++ ':' :: serVal v ++ ',' :: serObjTail tl
end

mutual
/-- Recursive sorting of object entries by key, modelling the fact that
`json.Marshal` serializes every Go map (at any depth) with its keys in
ascending byte order.  Real Go maps have distinct keys, for which any
sort gives the same entry sequence. -/
def deepSortKeys : JValue → JValue
  | .jarr xs => .jarr (deepSortArr xs)
  | .jobj kvs => .jobj (jobjOfList (List.insertionSort pairLe (deepSortEntries kvs)))
  | v => v
/-- Recursive key sorting inside each element of an array. -/
def deepSortArr : JArr → JArr
  | .nil => .nil
  | .cons v tl => .cons (deepSortKeys v) (deepSortArr tl)
/-- Entries of an object with their values recursively key-sorted, in
original order. -/
def deepSortEntries : JObj → List (String × JValue)
  | .nil => []
  | .cons k v tl => (k, deepSortKeys v) :: deepSortEntries tl
end

/-- Key-sorted entry spine of a Go map, as `json.Marshal` serializes it. -/
def deepSortObj (kvs : JObj) : JObj :=
  jobjOfList (List.insertionSort pairLe (deepSortEntries kvs))

/-- Model of `json.Marshal` on a decoded value: serialize with every
object's entries in ascending key order. -/
def marshalValueGo (v : JValue) : List Char := serVal (deepSortKeys v)

/-- Distinctness of a list of keys. -/
def keysNodup : List String → Bool
  | [] => true
  | k :: tl => !(tl.contains k) && keysNodup tl

mutual
/-- Well-formedness of a decoded value as the image of a real Go value:
every object, at any depth, has pairwise-distinct keys (Go maps cannot
hold duplicate keys). -/
def jwf : JValue → Bool
  | .jarr xs => jwfArr xs
  | .jobj kvs => keysNodup (objKeys kvs) && jwfObj kvs
  | _ => true
/-- Well-formedness of every element of an array. -/
def jwfArr : JArr → Bool
  | .nil => true
  | .cons v tl => jwf v && jwfArr tl
/-- Well-formedness of every value of an object. -/
def jwfObj : JObj → Bool
  | .nil => true
  | .cons _ v tl => jwf v && jwfObj tl
end

mutual
/-- Fuel needed by the recursive-descent parser below to consume the
serialization of a value: one unit per parser invocation. -/
def costVal : JValue → Nat
  | .jarr xs => 1 + costArr xs
  | .jobj kvs => 1 + costObj kvs
  | _ => 1
/-- Fuel needed to consume the serialized elements of an array. -/
def costArr : JArr → Nat
  | .nil => 0
  | .cons v tl => 1 + costVal v + costArr tl
/-- Fuel needed to consume the serialized entries of an object. -/
def costObj : JObj → Nat
  | .nil => 0
  | .cons _ v tl => 1 + costVal v + costObj tl
end

/-- White space skipped by the JSON decoder between tokens. -/
def jsonWs (c : Char) : Bool := c = ' ' || c = '\t' || c = '\n' || c = '\r'

/-- Skip inter-token white space. -/
def skipWs (cs : List Char) : List Char := cs.dropWhile jsonWs

/-- Value of a hexadecimal digit character, if it is one. -/
def hexVal (c : Char) : Option Nat :=
  if '0'.toNat ≤ c.toNat ∧ c.toNat ≤ '9'.toNat then some (c.toNat - '0'.toNat)
  else if 'a'.toNat ≤ c.toNat ∧ c.toNat ≤ 'f'.toNat then some (c.toNat - 'a'.toNat + 10)
  else if 'A'.toNat ≤ c.toNat ∧ c.toNat ≤ 'F'.toNat then some (c.toNat - 'A'.toNat + 10)
  else none

/-- Prepend a decoded character to the result of parsing the rest of a
string body. -/
def pushChar (c : Char) : Except GoErr (List Char × List Char) → Except GoErr (List Char × List Char)
  | .ok (s, r) => .ok (c :: s, r)
  | .error e => .error e

/-- Parse the body of a JSON string (after the opening quote), returning
the decoded characters and the input after the closing quote. -/
def parseStrBody : List Char → Except GoErr (List Char × List Char)
  | [] => .error (.fail "unexpected end of JSON input")
  | c :: rest =>
    if c = '"' then .ok ([], rest)
    else if c = '\\' then
      match rest with
      | e :: r =>
        if e = '"' then pushChar '"' (parseStrBody r)
        else if e = '\\' then pushChar '\\' (parseStrBody r)
        else if e = '/' then pushChar '/' (parseStrBody r)
        else if e = 'b' then pushChar '\x08' (parseStrBody r)
        else if e = 'f' then pushChar '\x0c' (parseStrBody r)
        else if e = 'n' then pushChar '\n' (parseStrBody r)
        else if e = 'r' then pushChar '\r' (parseStrBody r)
        else if e = 't' then pushChar '\t' (parseStrBody r)
        else if e = 'u' then
          match r with
          | h1 :: h2 :: h3 :: h4 :: r' =>
            match hexVal h1, hexVal h2, hexVal h3, hexVal h4 with
            | some a, some b, some c, some d =>
              pushChar (Char.ofNat (((a * 16 + b) * 16 + c) * 16 + d)) (parseStrBody r')
            | _, _, _, _ => .error (.fail "invalid character in string escape code")
          | _ => .error (.fail "unexpected end of JSON input")
        else .error (.fail "invalid character in string escape code")
      | [] => .error (.fail "unexpected end of JSON input")
    else pushChar c (parseStrBody rest)

/-- Numeric value of a decimal digit character. -/
def digitVal (c : Char) : Nat := c.toNat - '0'.toNat

/-- Natural number denoted by a list of decimal digits. -/
def digitsToNat (ds : List Char) : Nat := ds.foldl (fun acc c => acc * 10 + digitVal c) 0

/-- Parse a JSON number.  Only integral syntax is modelled (`JValue.jnum`
holds integers); nothing verified here involves fractional numerics.  A
leading character that opens no other token form reaches this parser, so
its failure also stands in for the decoder's invalid-character error. -/
def parseNum (cs : List Char) : Except GoErr (JValue × List Char) :=
  match cs with
  | [] => .error (.fail "unexpected end of JSON input")
  | c :: rest =>
    if c = '-' then
      let ds := rest.takeWhile Char.isDigit
      if ds.isEmpty then .error (.fail "invalid character in numeric literal")
      else .ok (.jnum (-(digitsToNat ds : Int)), rest.dropWhile Char.isDigit)
    else
      let ds := (c :: rest).takeWhile Char.isDigit
      if ds.isEmpty then .error (.fail "invalid character looking for beginning of value")
      else .ok (.jnum (digitsToNat ds), (c :: rest).dropWhile Char.isDigit)

mutual
/-- Recursive-descent parser for one JSON value, the model of
`json.Unmarshal` decoding into `any`.  Objects are rebuilt with Go map
semantics (`objFromEntries`: duplicate keys collapse, last occurrence
wins).  The fuel only bounds recursion depth of the model; the entry
point supplies more fuel than any input can consume. -/
def parseVal : Nat → List Char → Except GoErr (JValue × List Char)
  | 0, _ => .error (.fail "model: parser fuel exhausted")
  | fuel + 1, cs =>
    match skipWs cs with
    | [] => .error (.fail "unexpected end of JSON input")
    | c :: rest =>
      if c = 'n' then
        match rest with
        | 'u' :: 'l' :: 'l' :: r => .ok (.jnull, r)
        | _ => .error (.fail "invalid character in literal null")
      else if c = 't' then
        match rest with
        | 'r' :: 'u' :: 'e' :: r => .ok (.jbool true, r)
        | _ => .error (.fail "invalid character in literal true")
      else if c = 'f' then
        match rest with
        | 'a' :: 'l' :: 's' :: 'e' :: r => .ok (.jbool false, r)
        | _ => .error (.fail "invalid character in literal false")
      else if c = '"' then
        match parseStrBody rest with
        | .ok (content, r) => .ok (.jstr ⟨content⟩, r)
        | .error e => .error e
      else if c = '[' then
        match skipWs rest with
        | ']' :: r => .ok (.jarr .nil, r)
        | cs' =>
          match parseArrElems fuel cs' with
          | .ok (xs, r) => .ok (.jarr xs, r)
          | .error e => .error e
      else if c = '\x7b' then
        match skipWs rest with
        | '\x7d' :: r => .ok (.jobj .nil, r)
        | cs' =>
          match parseObjEntries fuel cs' with
          | .ok (entries, r) => .ok (.jobj (objFromEntries entries), r)
          | .error e => .error e
      else parseNum (c :: rest)
/-- Parse the comma-separated elements of a non-empty array, consuming
the closing bracket. -/
def parseArrElems : Nat → List Char → Except GoErr (JArr × List Char)
  | 0, _ => .error (.fail "model: parser fuel exhausted")
  | fuel + 1, cs =>
    match parseVal fuel cs with
    | .error e => .error e
    | .ok (v, rest) =>
      match skipWs rest with
      | ',' :: r =>
        match parseArrElems fuel r with
        | .ok (tl, r') => .ok (.cons v tl, r')
        | .error e => .error e
      | ']' :: r => .ok (.cons v .nil, r)
      | _ => .error (.fail "invalid character after array element")
/-- Parse the entries of a non-empty object in text order, consuming the
closing brace. -/
def parseObjEntries : Nat → List Char → Except GoErr (List (String × JValue) × List Char)
  | 0, _ => .error (.fail "model: parser fuel exhausted")
  | fuel + 1, cs =>
    match skipWs cs with
    | '"' :: rest =>
      match parseStrBody rest with
      | .error e => .error e
      | .ok (key, r1) =>
        match skipWs r1 with
        | ':' :: r2 =>
          match parseVal fuel r2 with
          | .error e => .error e
          | .ok (v, r3) =>
            match skipWs r3 with
            | ',' :: r4 =>
              match parseObjEntries fuel r4 with
              | .ok (tl, r5) => .ok ((⟨key⟩, v) :: tl, r5)
              | .error e => .error e
            | '\x7d' :: r4 => .ok ([(⟨key⟩, v)], r4)
            | _ => .error (.fail "invalid character after object key:value pair")
        | _ => .error (.fail "invalid character after object key")
    | _ => .error (.fail "invalid character looking for beginning of object key string")
end

/-- Parse a complete JSON document: one value with nothing but white
space after it. -/
def parseJSONText (s : String) : Except GoErr JValue :=
  match parseVal (2 * s.data.length + 4) s.data with
  | .error e => .error e
  | .ok (v, rest) =>
    if skipWs rest = [] then .ok v
    else .error (.fail "invalid character after top-level value")

/-- One element of the decoded `[]map[string]any` plugin list: `none` is
a nil map (a JSON `null` element), `some` a decoded object. -/
abbrev PElem := Option JObj

/-- Model of `getPluginPair`'s key: the first entry's key, or the empty
string for a nil or empty map.  Go ranges over an unordered map here;
the spine order stands in for that choice (multi-entry elements never
arise from this tool's own canonical output, whose elements are
single-entry). -/
def pelemKey : PElem → String
  | none => ""
  | some .nil => ""
  | some (.cons k _ _) => k

/-- Ordering of plugin elements used by `canonicalisePluginJSON`'s
`sort.Slice(plugins, ...)` call, comparing `getPluginPair` keys.  The
model sorts stably (Go's `sort.Slice` makes no tie guarantee; on the
short inputs involved its insertion-sort path is also stable). -/
def pelemLe (a b : PElem) : Prop := lexLe (pelemKey a).data (pelemKey b).data = true

instance : DecidableRel pelemLe := fun a b =>
  inferInstanceAs (Decidable (lexLe (pelemKey a).data (pelemKey b).data = true))

/-- Sort the plugin elements by their reference key. -/
def sortPluginElems (es : List PElem) : List PElem := List.insertionSort pelemLe es

/-- Conversion of the elements of a decoded array into `[]map[string]any`
elements. -/
def pelemsOfArr : JArr → Except GoErr (List PElem)
  | .nil => .ok []
  | .cons v tl =>
    match v with
    | .jnull =>
      match pelemsOfArr tl with
      | .ok es => .ok (none :: es)
      | .error e => .error e
    | .jobj o =>
      match pelemsOfArr tl with
      | .ok es => .ok (some o :: es)
      | .error e => .error e
    | _ => .error (.fail "json: cannot unmarshal element into Go value of type map[string]interface")

/-- Model of decoding a JSON value into `[]map[string]any`: `null` gives
a nil slice, an array gives a slice of (possibly nil) maps, anything
else is a type error. -/
def pluginsOfJValue : JValue → Except GoErr (Option (List PElem))
  | .jnull => .ok none
  | .jarr xs =>
    match pelemsOfArr xs with
    | .ok es => .ok (some es)
    | .error e => .error e
  | _ => .error (.fail "json: cannot unmarshal value into Go value of type []map[string]interface")

/-- Serialization of one plugin element as `json.Marshal` emits it: a nil
map becomes `null`, a map is serialized with deep key sorting. -/
def serPElem : PElem → List Char
  | none => ['n', 'u', 'l', 'l']
  | some o => marshalValueGo (.jobj o)

/-- Comma-separated serialization of plugin elements. -/
def serPElems : List PElem → List Char
  | [] => []
  | [e] => serPElem e
  | e :: tl => serPElem e ++ ',' :: serPElems tl

/-- Serialization of a decoded `[]map[string]any` value: a nil slice
becomes `null`, otherwise a JSON array. -/
def serPluginsVal : Option (List PElem) → List Char
  | none => ['n', 'u', 'l', 'l']
  | some es => '[' :: serPElems es ++ [']']

/-- Decode a plugin JSON string into `[]map[string]any`. -/
def parsePluginsTop (s : String) : Except GoErr (Option (List PElem)) :=
  match parseJSONText s with
  | .error e => .error e
  | .ok v => pluginsOfJValue v

/-- Model of `canonicalisePluginJSON`: unmarshal the plugin JSON into
`[]map[string]any`, sort the elements by plugin reference, and
re-marshal. -/
def canonicalisePluginJSON (s : String) : Except GoErr String :=
  match parsePluginsTop s with
  | .error e => .error e
  | .ok v => .ok ⟨serPluginsVal (v.map sortPluginElems)⟩

/-- Input that can safely follow a serialized value without changing how
the parser delimits it: empty, or starting with a non-digit (the
serializations only ever abut `,`, `]`, `\x7d` or the end of input). -/
def restOk : List Char → Bool
  | [] => true
  | c :: _ => !c.isDigit

/-- Strict version of the plugin element ordering. -/
def pelemLt (a b : PElem) : Prop := pelemLe a b ∧ ¬ pelemLe b a

/-- Reflexive closure of `pelemLt`, an antisymmetric order used to show
two sorted permutations coincide. -/
def pelemLtEq (a b : PElem) : Prop := pelemLt a b ∨ a = b

/-- Decoded value a plugin element re-parses to after `json.Marshal`
(key-sorted at every level). -/
def jvOfPElemDS : PElem → JValue
  | none => .jnull
  | some o => .jobj (deepSortObj o)

/-- Plugin element after a marshal/unmarshal round trip: its map gets
key-sorted at every level. -/
def pelemDS : PElem → PElem
  | none => none
  | some o => some (deepSortObj o)

/-- Well-formedness of a plugin element (a real Go map has distinct
keys). -/
def pelemWf : PElem → Bool
  | none => true
  | some o => jwf (.jobj o)

/-- Character class `[A-Za-z0-9-]` of the plugin reference patterns. -/
def pluginCharOk (c : Char) : Bool := c.isAlpha || c.isDigit || c = '-'

/-- Split a character list at the first occurrence of `sep`: the part
before it, and (when present) the part after it. -/
def splitAtChar (sep : Char) : List Char → List Char × Option (List Char)
  | [] => ([], none)
  | c :: tl =>
    if c = sep then ([], some tl)
    else
      let (pre, suf) := splitAtChar sep tl
      (c :: pre, suf)

/-- Whether the optional `(#.+)?$` suffix group of the plugin reference
patterns matches: either no `#` at all, or a `#` followed by at least one
character none of which is a newline (RE2's `.` excludes newline and the
pattern is anchored). -/
def hashSuffixOk : Option (List Char) → Bool
  | none => true
  | some rest => !rest.isEmpty && !rest.contains '\n'

/-- Text contributed by the optional version suffix group (`#` plus the
rest) when it matched. -/
def suffixText : Option (List Char) → List Char
  | none => []
  | some rest => '#' :: rest

/-- Model of `Plugin.Repository()`: qualify a single-segment official
plugin name or a two-segment `org/name` GitHub form, preserving an
optional `#version` suffix verbatim; anything else passes through
unchanged. -/
def pluginRepository (name : String) : String :=
  let (pre, suf) := splitAtChar '#' name.data
  if !pre.isEmpty && pre.all pluginCharOk && hashSuffixOk suf then
    "github.com/buildkite-plugins/" ++ ⟨pre⟩ ++ "-buildkite-plugin" ++ ⟨suffixText suf⟩
  else
    match splitAtChar '/' pre with
    | (s1, some s2) =>
      if !s1.isEmpty && s1.all pluginCharOk && !s2.isEmpty && s2.all pluginCharOk
          && hashSuffixOk suf then
        "github.com/" ++ ⟨s1⟩ ++ "/" ++ ⟨s2⟩ ++ "-buildkite-plugin" ++ ⟨suffixText suf⟩
      else name
    | (_, none) => name

/-- Go's `%T` rendering of the dynamic type of a decoded value. -/
def goTypeName : JValue → String
  | .jnull => "<nil>"
  | .jbool _ => "bool"
  | .jnum _ => "float64"
  | .jstr _ => "string"
  | .jarr _ => "[]interface \x7b\x7d"
  | .jobj _ => "map[string]interface \x7b\x7d"

/-- One parsed plugin declaration: reference name and optional parameter
map (`nil` when the settings were absent or not a map). -/
structure Plugin where
  Name : String
  Params : Option JObj
  deriving DecidableEq, Repr

/-- Settings attached to a plugin reference: the unchecked type assertion
`settings.(map[string]any)` yields the map when the settings are one and
nil otherwise. -/
def settingsParams : JValue → Option JObj
  | .jobj o => some o
  | _ => none

/-- Model of `NewPluginFromReference`: a bare string is a name with nil
params; a non-empty mapping contributes exactly one of its entries (the
Go code returns inside `for name, settings := range i`, so one
arbitrarily-chosen entry — the spine head in this model — is used and any
further entries are ignored); anything else, including an empty mapping,
is an unknown reference type error. -/
def NewPluginFromReference : JValue → Except GoErr Plugin
  | .jstr s => .ok ⟨s, none⟩
  | .jobj (.cons k v _) => .ok ⟨k, settingsParams v⟩
  | v => .error (.fail ("unknown plugin reference type " ++ goTypeName v))

/-- Single-entry `map[string]any` that `marshalPlugins` builds for one
plugin (`{repository: params}`), as a decoded plugin-list element. -/
def pelemOfPlugin (p : Plugin) : PElem :=
  some (.cons (pluginRepository p.Name)
    (match p.Params with
     | none => .jnull
     | some o => .jobj o) .nil)

/-- Model of `marshalPlugins`: `json.Marshal` of the slice of single-entry
maps (a nil slice — no plugins — marshals to `null`). -/
def marshalPlugins (ps : List Plugin) : String :=
  match ps with
  | [] => "null"
  | _ => ⟨serPluginsVal (some (ps.map pelemOfPlugin))⟩

/-- Parse every element of an array-syntax `plugins` declaration. -/
def parsePluginItems : JArr → Except GoErr (List Plugin)
  | .nil => .ok []
  | .cons v tl =>
    match NewPluginFromReference v with
    | .error e => .error e
    | .ok p =>
      match parsePluginItems tl with
      | .ok ps => .ok (p :: ps)
      | .error e => .error e

/-- Parse every entry of an object-syntax `plugins` declaration by
wrapping it as a single-entry map, as `extractPlugins` does. -/
def parsePluginObjEntries : JObj → Except GoErr (List Plugin)
  | .nil => .ok []
  | .cons k v tl =>
    match NewPluginFromReference (.jobj (.cons k v .nil)) with
    | .error e => .error e
    | .ok p =>
      match parsePluginObjEntries tl with
      | .ok ps => .ok (p :: ps)
      | .error e => .error e

/-- Model of `SharedSecretSigner.extractPlugins`: parse the declaration
(array or object syntax), marshal the plugins, and canonicalise the
resulting JSON. -/
def extractPlugins (plugins : JValue) : Except GoErr String :=
  match plugins with
  | .jarr items =>
    match parsePluginItems items with
    | .error e => .error e
    | .ok ps => canonicalisePluginJSON (marshalPlugins ps)
  | .jobj kvs =>
    match parsePluginObjEntries kvs with
    | .error e => .error e
    | .ok ps => canonicalisePluginJSON (marshalPlugins ps)
  | v => .error (.fail ("unknown plugin type " ++ goTypeName v))

/-- Signature strings (Go `type Signature string`). -/
abbrev Signature := String

/-- The signer: the shared secret plus the two test-override hooks the Go
struct carries (`nil` fields select the production implementations). -/
structure SharedSecretSigner where
  secret : String
  signerFunc : Option (String → String → Except GoErr Signature) := none
  unsignedCommandValidatorFunc : Option (String → Except GoErr Bool) := none

/-- Model of `NewSharedSecretSigner`. -/
def NewSharedSecretSigner (secret : String) : SharedSecretSigner := ⟨secret, none, none⟩

/-- Six lower-case hexadecimal digits of a code point. -/
def hex6 (n : Nat) : List Char :=
  [hexDigit (n / 16 ^ 5 % 16), hexDigit (n / 16 ^ 4 % 16), hexDigit (n / 16 ^ 3 % 16),
   hexDigit (n / 16 ^ 2 % 16), hexDigit (n / 16 % 16), hexDigit (n % 16)]

/-- Modelled from the implementation's use of `crypto/hmac` with SHA-256:
the keyed digest is represented by an injective, deterministic lowercase
hex encoding of key and message.  Every property verified here depends
only on the digest being a pure deterministic function of its inputs
rendered as hex, not on the cryptographic compression itself. -/
def hmacSha256Hex (key msg : String) : String :=
  ⟨(key.data ++ '\x00' :: msg.data).flatMap (fun c => hex6 c.toNat)⟩

/-- Model of `signData`: keyed digest over the whitespace-trimmed command,
the ambient build id, and the canonical plugin JSON (written to the MAC in
that order), rendered as `sha256:<hex>`. -/
def signDataStr (genv : GoEnv) (secret command pluginJSON : String) : Signature :=
  "sha256:" ++ hmacSha256Hex secret (goTrimSpace command ++ genv.buildID ++ pluginJSON)

/-- The `signData` method (it never returns an error). -/
def signData (genv : GoEnv) (secret : String) (command pluginJSON : String) :
    Except GoErr Signature :=
  .ok (signDataStr genv secret command pluginJSON)

/-- Effective signing function: the test override when set, otherwise
`signData`. -/
def signerFor (genv : GoEnv) (s : SharedSecretSigner) :
    String → String → Except GoErr Signature :=
  match s.signerFunc with
  | some f => f
  | none => fun c p => signData genv s.secret c p

/-- The reserved environment key. -/
def stepSignatureEnv : String := "STEP_SIGNATURE"

/-- Go's `reflect.Value.String()` on the unwrapped element: the string
itself for strings, and a `<T Value>` placeholder (no panic, no error)
for any other kind. -/
def reflValueString : JValue → String
  | .jstr s => s
  | .jnum _ => "<float64 Value>"
  | .jbool _ => "<bool Value>"
  | .jarr _ => "<[]interface \x7b\x7d Value>"
  | .jobj _ => "<map[string]interface \x7b\x7d Value>"
  | .jnull => "<invalid Value>"

/-- Strings produced from the elements of a command sequence via
`value.Index(i).Elem().String()`. -/
def reflStrings : JArr → List String
  | .nil => []
  | .cons v tl => reflValueString v :: reflStrings tl

/-- Model of `extractCommand`: a slice yields its elements rendered by
`reflect.Value.String()` joined with newlines, a string yields itself,
and any other kind is an unexpected-type error. -/
def extractCommand : JValue → Except GoErr String
  | .jarr xs => .ok ⟨joinNL (reflStrings xs)⟩
  | .jstr s => .ok s
  | v => .error (.fail ("unexpected type for command: " ++ goTypeName v))

/-- Append one value to an array spine. -/
def jarrAppend : JArr → JValue → JArr
  | .nil, v => .cons v .nil
  | .cons h tl, v => .cons h (jarrAppend tl v)

/-- Model of `addSignature`.  A missing `env` reaches this function as the
nil interface, which is also what an explicit JSON `null` decodes to;
both take the map branch (the Go code replaces a nil env with an empty
map before the type switch).  A `KEY=VALUE` sequence gets the rendered
`STEP_SIGNATURE=<sig>` entry appended; a map is copied with the signature
entry set (overwriting); anything else is an unknown-environment-type
error. -/
def addSignature (env : JValue) (signature : Signature) : Except GoErr JValue :=
  match env with
  | .jnull => .ok (.jobj (.cons stepSignatureEnv (.jstr signature) .nil))
  | .jarr xs => .ok (.jarr (jarrAppend xs (.jstr (stepSignatureEnv ++ "=" ++ signature))))
  | .jobj kvs => .ok (.jobj (objSet kvs stepSignatureEnv (.jstr signature)))
  | v => .error (.fail ("unknown environment type " ++ goTypeName v))

/-- Raw command value of a step: the `command` entry, else the `commands`
entry, else the empty string (note a present key with a `null` value
counts as present, as Go's comma-ok map read reports). -/
def rawCommandOf (kvs : JObj) : JValue :=
  match objLookup kvs "command" with
  | some v => v
  | none =>
    match objLookup kvs "commands" with
    | some v => v
    | none => .jstr ""

/-- The `steps` entry of a signed group sub-pipeline
(`signedGroup.(map[string]any)["steps"]`). -/
def jvalueSteps : JValue → Option JValue
  | .jobj o => objLookup o "steps"
  | _ => none

mutual
/-- Model of `SharedSecretSigner.signStep`.  The `Nat` argument is model
fuel bounding recursion depth (`group` steps recurse into `signF`); every
mutual call decrements it, and entry points supply more than any input
consumes.  A nil step is the `nil interface provided` error; a non-map
step makes Go's `reflect` panic (modelled as `crash`).  In the group
branch the Go code runs `signedGroup.(map[string]any)["steps"]` *before*
checking the returned error, so a failing nested step panics on the nil
interface instead of propagating the error. -/
def signStepF : Nat → GoEnv → SharedSecretSigner → JValue → Except GoErr JValue
  | 0, _, _, _ => .error (.crash "model: recursion fuel exhausted")
  | fuel + 1, genv, s, step =>
    match step with
    | .jnull => .error (.fail "nil interface provided")
    | .jobj kvs =>
      if (objLookup kvs "group").isSome then
        match signF fuel genv s (.jobj (.cons "steps" ((objLookup kvs "steps").getD .jnull) .nil)) with
        | .ok sg => .ok (.jobj (objSet kvs "steps" ((jvalueSteps sg).getD .jnull)))
        | .error _ =>
          .error (.crash "interface conversion: interface is nil, not map[string]interface")
      else
        match (match objLookup kvs "plugins" with
               | some pv => extractPlugins pv
               | none => .ok "") with
        | .error e => .error e
        | .ok extractedPlugins =>
          if rawCommandOf kvs = .jstr "" ∧ extractedPlugins = "" then .ok (.jobj kvs)
          else
            match extractCommand (rawCommandOf kvs) with
            | .error e => .error e
            | .ok extractedCommand =>
              match signerFor genv s extractedCommand extractedPlugins with
              | .error e => .error e
              | .ok signature =>
                match addSignature ((objLookup kvs "env").getD .jnull) signature with
                | .error e => .error e
                | .ok newEnv => .ok (.jobj (objSet kvs "env" newEnv))
    | _ => .error (.crash "reflect: call of reflect.Value.MapKeys on non-map Value")
/-- Model of `SharedSecretSigner.Sign`: a non-map pipeline is returned
unchanged; a map is rebuilt key by key through `maybeSignElements`, with
per-key error wrapping. -/
def signF : Nat → GoEnv → SharedSecretSigner → JValue → Except GoErr JValue
  | 0, _, _, _ => .error (.crash "model: recursion fuel exhausted")
  | fuel + 1, genv, s, pipeline =>
    match pipeline with
    | .jobj kvs =>
      match signPairsF fuel genv s kvs with
      | .ok kvs' => .ok (.jobj kvs')
      | .error e => .error e
    | v => .ok v
/-- The top-level key loop of `Sign`, wrapping errors with the
`signing pipeline element <key>:` context. -/
def signPairsF : Nat → GoEnv → SharedSecretSigner → JObj → Except GoErr JObj
  | 0, _, _, _ => .error (.crash "model: recursion fuel exhausted")
  | fuel + 1, genv, s, obj =>
    match obj with
    | .nil => .ok .nil
    | .cons k v tl =>
      match maybeSignElementsF fuel genv s k v with
      | .error e => .error (wrapFail ("signing pipeline element " ++ k ++ ": ") e)
      | .ok v' =>
        match signPairsF fuel genv s tl with
        | .ok tl' => .ok (.cons k v' tl')
        | .error e => .error e
/-- Model of `maybeSignElements`: keys other than (case-folded) `steps`
pass through, as does a `steps` value that is not a sequence; a sequence
is rebuilt with each non-string step signed. -/
def maybeSignElementsF : Nat → GoEnv → SharedSecretSigner → String → JValue → Except GoErr JValue
  | 0, _, _, _, _ => .error (.crash "model: recursion fuel exhausted")
  | fuel + 1, genv, s, keyName, item =>
    if goEqualFold keyName "steps" = false then .ok item
    else
      match item with
      | .jarr xs =>
        match signStepsF fuel genv s xs with
        | .ok ys => .ok (.jarr ys)
        | .error e => .error e
      | _ => .ok item
/-- The step loop of `maybeSignElements`: plain string steps (`wait`,
`block`) pass through unmodified, other steps are signed with the
`signing step:` error wrap; the first failure aborts the loop. -/
def signStepsF : Nat → GoEnv → SharedSecretSigner → JArr → Except GoErr JArr
  | 0, _, _, _ => .error (.crash "model: recursion fuel exhausted")
  | fuel + 1, genv, s, steps =>
    match steps with
    | .nil => .ok .nil
    | .cons st tl =>
      match st with
      | .jstr str =>
        match signStepsF fuel genv s tl with
        | .ok tl' => .ok (.cons (.jstr str) tl')
        | .error e => .error e
      | _ =>
        match signStepF fuel genv s st with
        | .error e => .error (wrapFail "signing step: " e)
        | .ok st' =>
          match signStepsF fuel genv s tl with
          | .ok tl' => .ok (.cons st' tl')
          | .error e => .error e
end

mutual
/-- Node count of a value, used to pick entry-point fuel. -/
def jvSize : JValue → Nat
  | .jarr xs => 1 + jvSizeArr xs
  | .jobj kvs => 1 + jvSizeObj kvs
  | _ => 1
/-- Node count of an array. -/
def jvSizeArr : JArr → Nat
  | .nil => 1
  | .cons v tl => 1 + jvSize v + jvSizeArr tl
/-- Node count of an object. -/
def jvSizeObj : JObj → Nat
  | .nil => 1
  | .cons _ v tl => 1 + jvSize v + jvSizeObj tl
end

/-- Entry point for `Sign` with fuel that comfortably exceeds the model's
recursion depth for the given pipeline. -/
def Sign (genv : GoEnv) (s : SharedSecretSigner) (pipeline : JValue) : Except GoErr JValue :=
  signF (4 * jvSize pipeline + 4) genv s pipeline

/-- The POSIX shell metacharacter set of the allow list. -/
def posixSpecialChars : String := "!\"#$&\x27()*,;<=>?[]\\^\x60\x7b\x7d|~"

/-- The batch (Windows) shell metacharacter set of the allow list. -/
def batchSpecialChars : String := "^&;,=%"

/-- Model of `getToolNames`: the tool's executable basename, plus its
`.exe`-stripped variant on Windows. -/
def getToolNames (genv : GoEnv) : List String :=
  [genv.argv0Base] ++ (if genv.goosWindows then [goTrimSuffix genv.argv0Base ".exe"] else [])

/-- Model of `isUploadCommand`: does the command start with
`<tool> upload` for one of the tool names, or with the vanilla
`buildkite-agent pipeline upload`? -/
def isUploadCommand (genv : GoEnv) (command : String) : Bool :=
  (getToolNames genv).any (fun t => goHasPrefixStr command (t ++ " upload"))
    || goHasPrefixStr command "buildkite-agent pipeline upload"

/-- Metacharacter set selected by the executing platform. -/
def platformSpecialChars (genv : GoEnv) : String :=
  if genv.goosWindows then batchSpecialChars else posixSpecialChars

/-- Model of `hasSpecialShellChars`. -/
def hasSpecialShellChars (genv : GoEnv) (str : String) : Bool :=
  goContainsAny str (platformSpecialChars genv)

/-- Model of `IsUnsignedCommandOk` (it never returns a non-nil error). -/
def IsUnsignedCommandOk (genv : GoEnv) (command : String) : Except GoErr Bool :=
  if !isUploadCommand genv command then .ok false
  else .ok (!hasSpecialShellChars genv command)

/-- Effective unsigned-command validator: the test override when set,
otherwise `IsUnsignedCommandOk`. -/
def validatorFor (genv : GoEnv) (s : SharedSecretSigner) : String → Except GoErr Bool :=
  match s.unsignedCommandValidatorFunc with
  | some f => f
  | none => fun c => IsUnsignedCommandOk genv c

/-- The missing-signature rejection. -/
def missingSignatureError : GoErr :=
  .fail "Signature missing. The provided command is not permitted to be unsigned"

/-- The signature-mismatch rejection. -/
def signatureMismatchError : GoErr :=
  .fail "Signature mismatch. Perhaps check the shared secret is the same across agents?"

/-- The recompute-and-compare tail of `Verify`: canonicalise the supplied
plugin JSON when non-empty, recompute the digest, and compare it with the
supplied signature. -/
def recomputeAndCompare (sf : String → String → Except GoErr Signature)
    (command pluginJSON : String) (expected : Signature) : Except GoErr Unit :=
  match (if pluginJSON ≠ "" then canonicalisePluginJSON pluginJSON else .ok pluginJSON) with
  | .error e => .error e
  | .ok pj =>
    match sf command pj with
    | .error e => .error e
    | .ok signature =>
      if signature = expected then .ok () else .error signatureMismatchError

/-- Model of `SharedSecretSigner.Verify`, parameterized by the effective
validator and signing functions exactly as the Go method selects them. -/
def verifyWith (vf : String → Except GoErr Bool)
    (sf : String → String → Except GoErr Signature)
    (command pluginJSON : String) (expected : Signature) : Except GoErr Unit :=
  if expected = "" ∧ pluginJSON = "" ∧ command ≠ "" then
    match vf command with
    | .error e => .error e
    | .ok true => .ok ()
    | .ok false => .error missingSignatureError
  else recomputeAndCompare sf command pluginJSON expected

/-- Model of `Verify` with the production validator and signer selected. -/
def Verify (genv : GoEnv) (s : SharedSecretSigner)
    (command pluginJSON : String) (expected : Signature) : Except GoErr Unit :=
  verifyWith (validatorFor genv s) (signerFor genv s) command pluginJSON expected

/-- Concrete ambient state for the closed verification instances: the
tool's standard executable name, a non-Windows platform, a build id. -/
def sampleEnv : GoEnv := ⟨"buildkite-signed-pipeline", false, "build-1"⟩

/-- Concrete production signer for the closed verification instances. -/
def sampleSigner : SharedSecretSigner := NewSharedSecretSigner "secret-llamas"

set_option maxRecDepth 40000

theorem charToNat_inj {a b : Char} (h : a.toNat = b.toNat) : a = b :=
  Char.ext (UInt32.ext h)

theorem lexLe_cons_iff {x y : Char} {xs ys : List Char} :
    lexLe (x :: xs) (y :: ys) = true ↔
      x.toNat < y.toNat ∨ (x.toNat = y.toNat ∧ lexLe xs ys = true) := by
  simp only [lexLe]
  split_ifs with h1 h2
  · simp; omega
  · simp; omega
  · constructor
    · intro h; right; exact ⟨by omega, h⟩
    · rintro (h | ⟨_, h⟩)
      · omega
      · exact h

theorem lexLe_total : ∀ a b : List Char, lexLe a b = true ∨ lexLe b a = true
  | [], _ => Or.inl rfl
  | _ :: _, [] => Or.inr rfl
  | x :: xs, y :: ys => by
    rcases Nat.lt_trichotomy x.toNat y.toNat with h | h | h
    · left; rw [lexLe_cons_iff]; exact Or.inl h
    · rcases lexLe_total xs ys with h' | h'
      · left; rw [lexLe_cons_iff]; exact Or.inr ⟨h, h'⟩
      · right; rw [lexLe_cons_iff]; exact Or.inr ⟨h.symm, h'⟩
    · right; rw [lexLe_cons_iff]; exact Or.inl h

theorem lexLe_trans : ∀ a b c : List Char,
    lexLe a b = true → lexLe b c = true → lexLe a c = true
  | [], _, _, _, _ => rfl
  | _ :: _, [], _, h, _ => by simp [lexLe] at h
  | _ :: _, _ :: _, [], _, h => by simp [lexLe] at h
  | x :: xs, y :: ys, z :: zs, h1, h2 => by
    rw [lexLe_cons_iff] at h1 h2 ⊢
    rcases h1 with h1 | ⟨e1, t1⟩
    · rcases h2 with h2 | ⟨e2, _⟩
      · exact Or.inl (h1.trans h2)
      · exact Or.inl (e2 ▸ h1)
    · rcases h2 with h2 | ⟨e2, t2⟩
      · exact Or.inl (e1 ▸ h2)
      · exact Or.inr ⟨e1.trans e2, lexLe_trans xs ys zs t1 t2⟩

theorem lexLe_antisymm : ∀ a b : List Char,
    lexLe a b = true → lexLe b a = true → a = b
  | [], [], _, _ => rfl
  | [], _ :: _, _, h => by simp [lexLe] at h
  | _ :: _, [], h, _ => by simp [lexLe] at h
  | x :: xs, y :: ys, h1, h2 => by
    rw [lexLe_cons_iff] at h1 h2
    rcases h1 with h1 | ⟨e1, t1⟩
    · rcases h2 with h2 | ⟨e2, _⟩
      · omega
      · omega
    · rcases h2 with h2 | ⟨_, t2⟩
      · omega
      · rw [charToNat_inj e1, lexLe_antisymm xs ys t1 t2]

instance : IsTotal (String × JValue) pairLe :=
  ⟨fun a b => lexLe_total a.1.data b.1.data⟩

instance : IsTrans (String × JValue) pairLe :=
  ⟨fun a b c h h' => lexLe_trans a.1.data b.1.data c.1.data h h'⟩

instance : IsTotal PElem pelemLe :=
  ⟨fun a b => lexLe_total (pelemKey a).data (pelemKey b).data⟩

instance : IsTrans PElem pelemLe :=
  ⟨fun a b c h h' => lexLe_trans (pelemKey a).data (pelemKey b).data (pelemKey c).data h h'⟩

instance : IsAntisymm PElem pelemLtEq := by
  constructor
  rintro a b (⟨h1, h2⟩ | rfl) h'
  · rcases h' with ⟨h3, _⟩ | rfl
    · exact absurd h3 h2
    · rfl
  · rfl

theorem pelemLe_key_eq {a b : PElem} (h1 : pelemLe a b) (h2 : pelemLe b a) :
    pelemKey a = pelemKey b :=
  String.ext (lexLe_antisymm _ _ h1 h2)

theorem strContains_iff_mem {l : List String} {k : String} :
    l.contains k = true ↔ k ∈ l := by
  simp [List.contains_iff_exists_mem_beq]

theorem keysNodup_iff : ∀ l : List String, keysNodup l = true ↔ l.Nodup := by
  intro l
  induction l with
  | nil => simp [keysNodup]
  | cons k tl ih =>
    simp only [keysNodup, Bool.and_eq_true, Bool.not_eq_true', List.nodup_cons, ih]
    constructor
    · rintro ⟨h1, h2⟩
      refine ⟨fun hm => ?_, h2⟩
      rw [strContains_iff_mem.mpr hm] at h1
      cases h1
    · rintro ⟨h1, h2⟩
      refine ⟨?_, h2⟩
      cases h : tl.contains k
      · rfl
      · exact absurd (strContains_iff_mem.mp h) h1

theorem digitChar_isDigit (d : Nat) : (digitChar d).isDigit = true := by
  unfold digitChar
  split_ifs <;> decide

theorem digitVal_digitChar {d : Nat} (h : d < 10) : digitVal (digitChar d) = d := by
  interval_cases d <;> decide

theorem natDigitsAux_ne_nil (fuel n : Nat) : natDigitsAux (fuel + 1) n ≠ [] := by
  unfold natDigitsAux
  split_ifs
  · simp
  · simp

theorem natDigitsAux_all_digits : ∀ fuel n, (natDigitsAux fuel n).all Char.isDigit = true := by
  intro fuel
  induction fuel with
  | zero => intro n; rfl
  | succ f ih =>
    intro n
    unfold natDigitsAux
    split_ifs
    · simp [digitChar_isDigit]
    · simp only [List.all_append, Bool.and_eq_true]
      exact ⟨ih (n / 10), by simp [digitChar_isDigit]⟩

theorem digitsToNat_append_one (ds : List Char) (c : Char) :
    digitsToNat (ds ++ [c]) = digitsToNat ds * 10 + digitVal c := by
  simp [digitsToNat, List.foldl_append]

theorem digitsToNat_natDigitsAux : ∀ fuel n, n < fuel →
    digitsToNat (natDigitsAux fuel n) = n := by
  intro fuel
  induction fuel with
  | zero => omega
  | succ f ih =>
    intro n hn
    unfold natDigitsAux
    split_ifs with h10
    · simp [digitsToNat, digitVal_digitChar h10]
    · have hdiv : n / 10 < n := Nat.div_lt_self (by omega) (by omega)
      rw [digitsToNat_append_one, ih (n / 10) (by omega),
        digitVal_digitChar (Nat.mod_lt n (by omega))]
      omega

theorem digitsToNat_natDigits (n : Nat) : digitsToNat (natDigits n) = n :=
  digitsToNat_natDigitsAux (n + 1) n (by omega)

theorem natDigits_ne_nil (n : Nat) : natDigits n ≠ [] := natDigitsAux_ne_nil n n

theorem takeWhile_all_append {p : Char → Bool} : ∀ (xs rest : List Char),
    xs.all p = true → (∀ c t, rest = c :: t → p c = false) →
    (xs ++ rest).takeWhile p = xs ∧ (xs ++ rest).dropWhile p = rest := by
  intro xs
  induction xs with
  | nil =>
    intro rest _ hrest
    cases rest with
    | nil => simp
    | cons c t =>
      simp [List.takeWhile_cons, List.dropWhile_cons, hrest c t rfl]
  | cons x tl ih =>
    intro rest hall hrest
    simp only [List.all_cons, Bool.and_eq_true] at hall
    have := ih rest hall.2 hrest
    simp [List.takeWhile_cons, List.dropWhile_cons, hall.1, this.1, this.2]

theorem restOk_head {rest : List Char} (h : restOk rest = true) :
    ∀ c t, rest = c :: t → c.isDigit = false := by
  intro c t he
  subst he
  simpa [restOk] using h

theorem isDigit_ne_minus {c : Char} (h : c.isDigit = true) : c ≠ '-' := by
  intro he
  subst he
  simp [Char.isDigit] at h

theorem parseNum_intChars (i : Int) (rest : List Char) (hrest : restOk rest = true) :
    parseNum (intChars i ++ rest) = .ok (.jnum i, rest) := by
  by_cases hi : i < 0
  · have hd := takeWhile_all_append (natDigits i.natAbs) rest
      (natDigitsAux_all_digits (i.natAbs + 1) i.natAbs) (restOk_head hrest)
    simp only [intChars, if_pos hi, List.cons_append, parseNum, if_pos rfl]
    rw [hd.1, hd.2]
    have hne : (natDigits i.natAbs).isEmpty = false := by
      cases hh : natDigits i.natAbs
      · exact absurd hh (natDigits_ne_nil _)
      · rfl
    simp only [hne, Bool.false_eq_true, if_false, digitsToNat_natDigits]
    have : ((i.natAbs : Nat) : Int) = -i := by omega
    rw [this]
    simp
  · obtain ⟨c, cs, hcons⟩ : ∃ c cs, natDigits i.toNat = c :: cs := by
      cases hh : natDigits i.toNat
      · exact absurd hh (natDigits_ne_nil _)
      · exact ⟨_, _, rfl⟩
    have hall := natDigitsAux_all_digits (i.toNat + 1) i.toNat
    rw [show natDigitsAux (i.toNat + 1) i.toNat = natDigits i.toNat from rfl, hcons] at hall
    simp only [List.all_cons, Bool.and_eq_true] at hall
    have hd := takeWhile_all_append (c :: cs) rest
      (by simp [hall.1, hall.2]) (restOk_head hrest)
    simp only [intChars, if_neg hi, hcons, List.cons_append, parseNum,
      if_neg (isDigit_ne_minus hall.1)]
    rw [show c :: (cs ++ rest) = (c :: cs) ++ rest from rfl, hd.1, hd.2]
    have hne : (c :: cs).isEmpty = false := rfl
    simp only [hne, Bool.false_eq_true, if_false]
    rw [← hcons, digitsToNat_natDigits]
    have : ((i.toNat : Nat) : Int) = i := by omega
    rw [this]

theorem strMk_data (s : String) : (⟨s.data⟩ : String) = s := String.ext rfl

theorem hexVal_hexDigit {d : Nat} (h : d < 16) : hexVal (hexDigit d) = some d := by
  interval_cases d <;> decide

theorem parseStrBody_escChar (c : Char) (t : List Char) :
    parseStrBody (escChar c ++ t) = pushChar c (parseStrBody t) := by
  unfold escChar
  by_cases h1 : c = '"'
  · rw [if_pos h1]; subst h1; rw [parseStrBody.eq_def]; simp
  rw [if_neg h1]
  by_cases h2 : c = '\\'
  · rw [if_pos h2]; subst h2; rw [parseStrBody.eq_def]; simp
  rw [if_neg h2]
  by_cases h3 : c = '\n'
  · rw [if_pos h3]; subst h3; rw [parseStrBody.eq_def]; simp
  rw [if_neg h3]
  by_cases h4 : c = '\r'
  · rw [if_pos h4]; subst h4; rw [parseStrBody.eq_def]; simp
  rw [if_neg h4]
  by_cases h5 : c = '\t'
  · rw [if_pos h5]; subst h5; rw [parseStrBody.eq_def]; simp
  rw [if_neg h5]
  by_cases h6 : c = '<'
  · rw [if_pos h6]; subst h6; rw [parseStrBody.eq_def]
    simp [show hexVal '0' = some 0 from rfl, show hexVal '3' = some 3 from rfl,
      show hexVal 'c' = some 12 from rfl]
  rw [if_neg h6]
  by_cases h7 : c = '>'
  · rw [if_pos h7]; subst h7; rw [parseStrBody.eq_def]
    simp [show hexVal '0' = some 0 from rfl, show hexVal '3' = some 3 from rfl,
      show hexVal 'e' = some 14 from rfl]
  rw [if_neg h7]
  by_cases h8 : c = '&'
  · rw [if_pos h8]; subst h8; rw [parseStrBody.eq_def]
    simp [show hexVal '0' = some 0 from rfl, show hexVal '2' = some 2 from rfl,
      show hexVal '6' = some 6 from rfl]
  rw [if_neg h8]
  by_cases h9 : c.toNat < 32
  · rw [if_pos h9]
    have hhi : c.toNat / 16 < 16 := by omega
    have hlo : c.toNat % 16 < 16 := by omega
    simp only [List.cons_append, List.nil_append]
    rw [parseStrBody.eq_def]
    simp [hexVal_hexDigit hhi, hexVal_hexDigit hlo,
      show hexVal '0' = some 0 from rfl]
    rw [show c.toNat / 16 * 16 + c.toNat % 16 = c.toNat by omega, Char.ofNat_toNat]
  rw [if_neg h9]
  by_cases h10 : c.toNat = 0x2028
  · rw [if_pos h10]
    have hc : c = Char.ofNat 0x2028 := by rw [← h10, Char.ofNat_toNat]
    subst hc
    rw [parseStrBody.eq_def]
    simp [show hexVal '2' = some 2 from rfl, show hexVal '0' = some 0 from rfl,
      show hexVal '8' = some 8 from rfl]
  rw [if_neg h10]
  by_cases h11 : c.toNat = 0x2029
  · rw [if_pos h11]
    have hc : c = Char.ofNat 0x2029 := by rw [← h11, Char.ofNat_toNat]
    subst hc
    rw [parseStrBody.eq_def]
    simp [show hexVal '2' = some 2 from rfl, show hexVal '0' = some 0 from rfl,
      show hexVal '9' = some 9 from rfl]
  rw [if_neg h11]
  simp only [List.cons_append, List.nil_append]
  rw [parseStrBody.eq_def]
  simp [h1, h2]

theorem parseStrBody_flatMap : ∀ (l rest : List Char),
    parseStrBody (l.flatMap escChar ++ '"' :: rest) = .ok (l, rest) := by
  intro l
  induction l with
  | nil =>
    intro rest
    rw [List.flatMap_nil, List.nil_append, parseStrBody.eq_def]
    simp
  | cons c tl ih =>
    intro rest
    rw [List.flatMap_cons, List.append_assoc, parseStrBody_escChar, ih]
    rfl

theorem skipWs_of_head {c : Char} (cs : List Char) (h : jsonWs c = false) :
    skipWs (c :: cs) = c :: cs := by
  simp [skipWs, List.dropWhile_cons, h]

theorem digitChar_facts (d : Nat) :
    jsonWs (digitChar d) = false ∧ digitChar d ≠ ']' ∧ digitChar d ≠ '\x7d' ∧
      digitChar d ≠ 'n' ∧ digitChar d ≠ 't' ∧ digitChar d ≠ 'f' ∧
      digitChar d ≠ '"' ∧ digitChar d ≠ '[' ∧ digitChar d ≠ '\x7b' := by
  unfold digitChar
  split_ifs <;> exact ⟨rfl, by decide, by decide, by decide, by decide, by decide,
    by decide, by decide, by decide⟩

theorem natDigitsAux_head : ∀ (f n : Nat), ∃ d rest, natDigitsAux (f + 1) n = digitChar d :: rest := by
  intro f
  induction f with
  | zero =>
    intro n
    unfold natDigitsAux
    split_ifs
    · exact ⟨n, [], rfl⟩
    · exact ⟨n % 10, [], rfl⟩
  | succ f' ih =>
    intro n
    rw [natDigitsAux]
    split_ifs
    · exact ⟨n, [], rfl⟩
    · obtain ⟨d, rest, hd⟩ := ih (n / 10)
      exact ⟨d, rest ++ [digitChar (n % 10)], by rw [hd]; rfl⟩

theorem intChars_head (i : Int) :
    ∃ c cs, intChars i = c :: cs ∧ (c = '-' ∨ ∃ d, c = digitChar d) := by
  unfold intChars
  split_ifs
  · exact ⟨'-', natDigits i.natAbs, rfl, Or.inl rfl⟩
  · obtain ⟨d, rest, hd⟩ := natDigitsAux_head i.toNat i.toNat
    exact ⟨digitChar d, rest, hd, Or.inr ⟨d, rfl⟩⟩

theorem keyMem_iff (k : String) : ∀ l : List (String × JValue),
    keyMem k l = true ↔ k ∈ l.map Prod.fst := by
  intro l
  induction l with
  | nil => simp [keyMem]
  | cons p tl ih =>
    obtain ⟨k', v⟩ := p
    simp only [keyMem, Bool.or_eq_true, decide_eq_true_eq, List.map_cons, List.mem_cons, ih]
    constructor
    · rintro (rfl | h)
      · exact Or.inl rfl
      · exact Or.inr h
    · rintro (rfl | h)
      · exact Or.inl rfl
      · exact Or.inr h

theorem objKeys_eq_map_fst : ∀ kvs : JObj, objKeys kvs = (jobjToList kvs).map Prod.fst
  | .nil => rfl
  | .cons k v tl => by simp [objKeys, jobjToList, objKeys_eq_map_fst tl]

theorem objFromEntries_jobjToList : ∀ kvs : JObj, keysNodup (objKeys kvs) = true →
    objFromEntries (jobjToList kvs) = kvs
  | .nil => fun _ => rfl
  | .cons k v tl => by
    intro hnd
    have ih := objFromEntries_jobjToList tl
    simp only [objKeys, keysNodup, Bool.and_eq_true, Bool.not_eq_true'] at hnd
    have hmem : keyMem k (jobjToList tl) = false := by
      cases h : keyMem k (jobjToList tl)
      · rfl
      · rw [keyMem_iff] at h
        rw [← objKeys_eq_map_fst] at h
        rw [strContains_iff_mem.mpr h] at hnd
        cases hnd.1
    simp [jobjToList, objFromEntries, hmem, ih hnd.2]

theorem serVal_head : ∀ v : JValue,
    ∃ c cs, serVal v = c :: cs ∧ jsonWs c = false ∧ c ≠ ']' ∧ c ≠ '\x7d'
  | .jnull => ⟨'n', _, rfl, by decide, by decide, by decide⟩
  | .jbool true => ⟨'t', _, rfl, by decide, by decide, by decide⟩
  | .jbool false => ⟨'f', _, rfl, by decide, by decide, by decide⟩
  | .jstr s => ⟨'"', _, rfl, by decide, by decide, by decide⟩
  | .jnum i => by
    obtain ⟨c, cs, hc, hd⟩ := intChars_head i
    refine ⟨c, cs, hc, ?_, ?_, ?_⟩
    · rcases hd with rfl | ⟨d, rfl⟩
      · decide
      · exact (digitChar_facts d).1
    · rcases hd with rfl | ⟨d, rfl⟩
      · decide
      · exact (digitChar_facts d).2.1
    · rcases hd with rfl | ⟨d, rfl⟩
      · decide
      · exact (digitChar_facts d).2.2.1
  | .jarr xs => ⟨'[', _, rfl, by decide, by decide, by decide⟩
  | .jobj kvs => ⟨'\x7b', _, rfl, by decide, by decide, by decide⟩


theorem parseVal_succ_cons (f : Nat) (c : Char) (cs' : List Char) (h : jsonWs c = false) :
    parseVal (f + 1) (c :: cs') =
      (if c = 'n' then
        match cs' with
        | 'u' :: 'l' :: 'l' :: r => .ok (.jnull, r)
        | _ => .error (.fail "invalid character in literal null")
      else if c = 't' then
        match cs' with
        | 'r' :: 'u' :: 'e' :: r => .ok (.jbool true, r)
        | _ => .error (.fail "invalid character in literal true")
      else if c = 'f' then
        match cs' with
        | 'a' :: 'l' :: 's' :: 'e' :: r => .ok (.jbool false, r)
        | _ => .error (.fail "invalid character in literal false")
      else if c = '"' then
        match parseStrBody cs' with
        | .ok (content, r) => .ok (.jstr ⟨content⟩, r)
        | .error e => .error e
      else if c = '[' then
        match skipWs cs' with
        | ']' :: r => .ok (.jarr .nil, r)
        | cs'' =>
          match parseArrElems f cs'' with
          | .ok (xs, r) => .ok (.jarr xs, r)
          | .error e => .error e
      else if c = '\x7b' then
        match skipWs cs' with
        | '\x7d' :: r => .ok (.jobj .nil, r)
        | cs'' =>
          match parseObjEntries f cs'' with
          | .ok (entries, r) => .ok (.jobj (objFromEntries entries), r)
          | .error e => .error e
      else parseNum (c :: cs')) := by
  show parseVal (f + 1) (c :: cs') = _
  have hs : skipWs (c :: cs') = c :: cs' := skipWs_of_head _ h
  rw [show parseVal (f + 1) (c :: cs') =
    (match skipWs (c :: cs') with
     | [] => .error (.fail "unexpected end of JSON input")
     | c :: rest =>
       if c = 'n' then
         match rest with
         | 'u' :: 'l' :: 'l' :: r => .ok (.jnull, r)
         | _ => .error (.fail "invalid character in literal null")
       else if c = 't' then
         match rest with
         | 'r' :: 'u' :: 'e' :: r => .ok (.jbool true, r)
         | _ => .error (.fail "invalid character in literal true")
       else if c = 'f' then
         match rest with
         | 'a' :: 'l' :: 's' :: 'e' :: r => .ok (.jbool false, r)
         | _ => .error (.fail "invalid character in literal false")
       else if c = '"' then
         match parseStrBody rest with
         | .ok (content, r) => .ok (.jstr ⟨content⟩, r)
         | .error e => .error e
       else if c = '[' then
         match skipWs rest with
         | ']' :: r => .ok (.jarr .nil, r)
         | cs'' =>
           match parseArrElems f cs'' with
           | .ok (xs, r) => .ok (.jarr xs, r)
           | .error e => .error e
       else if c = '\x7b' then
         match skipWs rest with
         | '\x7d' :: r => .ok (.jobj .nil, r)
         | cs'' =>
           match parseObjEntries f cs'' with
           | .ok (entries, r) => .ok (.jobj (objFromEntries entries), r)
           | .error e => .error e
       else parseNum (c :: rest) : Except GoErr (JValue × List Char)) from rfl, hs]

theorem parseObjEntries_succ_quote (f : Nat) (cs' : List Char) :
    parseObjEntries (f + 1) ('"' :: cs') =
      (match parseStrBody cs' with
      | .error e => .error e
      | .ok (key, r1) =>
        match skipWs r1 with
        | ':' :: r2 =>
          match parseVal f r2 with
          | .error e => .error e
          | .ok (v, r3) =>
            match skipWs r3 with
            | ',' :: r4 =>
              match parseObjEntries f r4 with
              | .ok (tl, r5) => .ok ((⟨key⟩, v) :: tl, r5)
              | .error e => .error e
            | '\x7d' :: r4 => .ok ([(⟨key⟩, v)], r4)
            | _ => .error (.fail "invalid character after object key:value pair")
        | _ => .error (.fail "invalid character after object key")
      : Except GoErr (List (String × JValue) × List Char)) := rfl

theorem parseArrElems_succ (f : Nat) (cs : List Char) :
    parseArrElems (f + 1) cs =
      match parseVal f cs with
      | .error e => .error e
      | .ok (v, rest) =>
        match skipWs rest with
        | ',' :: r =>
          match parseArrElems f r with
          | .ok (tl, r') => .ok (.cons v tl, r')
          | .error e => .error e
        | ']' :: r => .ok (.cons v .nil, r)
        | _ => .error (.fail "invalid character after array element") := rfl

mutual
theorem rtVal : ∀ (v : JValue) (fuel : Nat) (rest : List Char),
    jwf v = true → costVal v ≤ fuel → restOk rest = true →
    parseVal fuel (serVal v ++ rest) = .ok (v, rest)
  | .jnull, fuel, rest => by
    intro _ hc _
    obtain ⟨f, rfl⟩ : ∃ f, fuel = f + 1 := ⟨fuel - 1, by simp [costVal] at hc; omega⟩
    rw [show serVal .jnull ++ rest = 'n' :: ('u' :: 'l' :: 'l' :: rest) from rfl,
      parseVal_succ_cons f 'n' _ (by decide)]
    simp
  | .jbool true, fuel, rest => by
    intro _ hc _
    obtain ⟨f, rfl⟩ : ∃ f, fuel = f + 1 := ⟨fuel - 1, by simp [costVal] at hc; omega⟩
    rw [show serVal (.jbool true) ++ rest = 't' :: ('r' :: 'u' :: 'e' :: rest) from rfl,
      parseVal_succ_cons f 't' _ (by decide)]
    simp
  | .jbool false, fuel, rest => by
    intro _ hc _
    obtain ⟨f, rfl⟩ : ∃ f, fuel = f + 1 := ⟨fuel - 1, by simp [costVal] at hc; omega⟩
    rw [show serVal (.jbool false) ++ rest = 'f' :: ('a' :: 'l' :: 's' :: 'e' :: rest) from rfl,
      parseVal_succ_cons f 'f' _ (by decide)]
    simp
  | .jstr s, fuel, rest => by
    intro _ hc _
    obtain ⟨f, rfl⟩ : ∃ f, fuel = f + 1 := ⟨fuel - 1, by simp [costVal] at hc; omega⟩
    rw [show serVal (.jstr s) ++ rest = '"' :: (s.data.flatMap escChar ++ '"' :: rest) from by
      simp [serVal, serStr], parseVal_succ_cons f '"' _ (by decide)]
    simp [parseStrBody_flatMap, strMk_data]
  | .jnum i, fuel, rest => by
    intro _ hc hr
    obtain ⟨f, rfl⟩ : ∃ f, fuel = f + 1 := ⟨fuel - 1, by simp [costVal] at hc; omega⟩
    obtain ⟨c, cs, hic, hd⟩ := intChars_head i
    have hfacts : jsonWs c = false ∧ c ≠ 'n' ∧ c ≠ 't' ∧ c ≠ 'f' ∧ c ≠ '"' ∧
        c ≠ '[' ∧ c ≠ '\x7b' := by
      rcases hd with rfl | ⟨d, rfl⟩
      · exact ⟨by decide, by decide, by decide, by decide, by decide, by decide, by decide⟩
      · obtain ⟨w1, _, _, w4, w5, w6, w7, w8, w9⟩ := digitChar_facts d
        exact ⟨w1, w4, w5, w6, w7, w8, w9⟩
    rw [show serVal (.jnum i) ++ rest = intChars i ++ rest from rfl, hic, List.cons_append,
      parseVal_succ_cons f c _ hfacts.1,
      if_neg hfacts.2.1, if_neg hfacts.2.2.1, if_neg hfacts.2.2.2.1, if_neg hfacts.2.2.2.2.1,
      if_neg hfacts.2.2.2.2.2.1, if_neg hfacts.2.2.2.2.2.2,
      ← List.cons_append, ← hic, parseNum_intChars i rest hr]
  | .jarr .nil, fuel, rest => by
    intro _ hc _
    obtain ⟨f, rfl⟩ : ∃ f, fuel = f + 1 := ⟨fuel - 1, by simp [costVal, costArr] at hc; omega⟩
    rw [show serVal (.jarr .nil) ++ rest = '[' :: (']' :: rest) from rfl,
      parseVal_succ_cons f '[' _ (by decide)]
    simp [skipWs, List.dropWhile_cons, jsonWs]
  | .jarr (.cons x tl), fuel, rest => by
    intro hwf hc hr
    obtain ⟨f, rfl⟩ : ∃ f, fuel = f + 1 := ⟨fuel - 1, by simp [costVal] at hc; omega⟩
    have hwf' : jwfArr (JArr.cons x tl) = true := by simpa [jwf] using hwf
    have harr := rtArr (.cons x tl) f rest hwf'
      (by simp [costVal] at hc; omega) hr (by simp)
    obtain ⟨c, cs, hser, hws, hrb, _⟩ := serVal_head x
    obtain ⟨X, hX⟩ : ∃ X, serArrTail (.cons x tl) ++ rest = c :: X := by
      cases tl with
      | nil => exact ⟨cs ++ ']' :: rest, by simp [serArrTail, hser]⟩
      | cons y tl2 =>
        exact ⟨cs ++ ',' :: (serArrTail (.cons y tl2) ++ rest), by simp [serArrTail, hser]⟩
    rw [show serVal (.jarr (.cons x tl)) ++ rest = '[' :: (serArrTail (.cons x tl) ++ rest)
      from by simp [serVal], parseVal_succ_cons f '[' _ (by decide),
      if_neg (by decide : ¬('[' : Char) = 'n'), if_neg (by decide : ¬('[' : Char) = 't'),
      if_neg (by decide : ¬('[' : Char) = 'f'), if_neg (by decide : ¬('[' : Char) = '"'),
      if_pos rfl, hX, skipWs_of_head _ hws, ← hX]
    split
    · rename_i heq
      rw [hX] at heq
      cases heq
      exact absurd rfl hrb
    · rw [harr]
  | .jobj .nil, fuel, rest => by
    intro _ hc _
    obtain ⟨f, rfl⟩ : ∃ f, fuel = f + 1 := ⟨fuel - 1, by simp [costVal, costObj] at hc; omega⟩
    rw [show serVal (.jobj .nil) ++ rest = '\x7b' :: ('\x7d' :: rest) from rfl,
      parseVal_succ_cons f '\x7b' _ (by decide)]
    simp [skipWs, List.dropWhile_cons, jsonWs]
  | .jobj (.cons k v tl), fuel, rest => by
    intro hwf hc hr
    obtain ⟨f, rfl⟩ : ∃ f, fuel = f + 1 := ⟨fuel - 1, by simp [costVal] at hc; omega⟩
    have hnd : keysNodup (objKeys (JObj.cons k v tl)) = true := by
      simp only [jwf, Bool.and_eq_true] at hwf
      exact hwf.1
    have hwfo : jwfObj (JObj.cons k v tl) = true := by
      simp only [jwf, Bool.and_eq_true] at hwf
      exact hwf.2
    have hobj := rtObj (.cons k v tl) f rest hwfo
      (by simp [costVal] at hc; omega) hr (by simp)
    obtain ⟨X, hX⟩ : ∃ X, serObjTail (.cons k v tl) ++ rest = '"' :: X := by
      cases tl with
      | nil =>
        exact ⟨k.data.flatMap escChar ++ '"' :: (':' :: (serVal v ++ '\x7d' :: rest)),
          by simp [serObjTail, serStr]⟩
      | cons k2 v2 tl2 =>
        exact ⟨k.data.flatMap escChar ++ '"' ::
          (':' :: (serVal v ++ ',' :: (serObjTail (.cons k2 v2 tl2) ++ rest))),
          by simp [serObjTail, serStr]⟩
    rw [show serVal (.jobj (.cons k v tl)) ++ rest = '\x7b' :: (serObjTail (.cons k v tl) ++ rest)
      from by simp [serVal], parseVal_succ_cons f '\x7b' _ (by decide),
      if_neg (by decide : ¬('\x7b' : Char) = 'n'), if_neg (by decide : ¬('\x7b' : Char) = 't'),
      if_neg (by decide : ¬('\x7b' : Char) = 'f'), if_neg (by decide : ¬('\x7b' : Char) = '"'),
      if_neg (by decide : ¬('\x7b' : Char) = '['), if_pos rfl,
      hX, skipWs_of_head _ (by decide : jsonWs '"' = false), ← hX]
    split
    · rename_i heq
      rw [hX] at heq
      simp at heq
    · rw [hobj]
      simp [objFromEntries_jobjToList _ hnd]
theorem rtArr : ∀ (xs : JArr) (fuel : Nat) (rest : List Char),
    jwfArr xs = true → costArr xs ≤ fuel → restOk rest = true → xs ≠ .nil →
    parseArrElems fuel (serArrTail xs ++ rest) = .ok (xs, rest)
  | .nil, _, _ => by intro _ _ _ h; exact absurd rfl h
  | .cons x tl, fuel, rest => by
    intro hwf hc hr _
    obtain ⟨f, rfl⟩ : ∃ f, fuel = f + 1 := ⟨fuel - 1, by simp [costArr] at hc; omega⟩
    simp only [jwfArr, Bool.and_eq_true] at hwf
    rw [parseArrElems_succ]
    cases tl with
    | nil =>
      rw [show serArrTail (.cons x .nil) ++ rest = serVal x ++ ']' :: rest from by
        simp [serArrTail]]
      rw [rtVal x f (']' :: rest) hwf.1 (by simp [costArr] at hc; omega) rfl]
      simp [skipWs, List.dropWhile_cons, jsonWs]
    | cons y tl2 =>
      rw [show serArrTail (.cons x (.cons y tl2)) ++ rest =
          serVal x ++ ',' :: (serArrTail (.cons y tl2) ++ rest) from by simp [serArrTail]]
      rw [rtVal x f (',' :: (serArrTail (.cons y tl2) ++ rest)) hwf.1
        (by simp [costArr] at hc; omega) rfl]
      simp [skipWs, List.dropWhile_cons, jsonWs,
        rtArr (.cons y tl2) f rest hwf.2 (by simp [costArr] at hc ⊢; omega) hr (by simp)]
theorem rtObj : ∀ (kvs : JObj) (fuel : Nat) (rest : List Char),
    jwfObj kvs = true → costObj kvs ≤ fuel → restOk rest = true → kvs ≠ .nil →
    parseObjEntries fuel (serObjTail kvs ++ rest) = .ok (jobjToList kvs, rest)
  | .nil, _, _ => by intro _ _ _ h; exact absurd rfl h
  | .cons k v tl, fuel, rest => by
    intro hwf hc hr _
    obtain ⟨f, rfl⟩ : ∃ f, fuel = f + 1 := ⟨fuel - 1, by simp [costObj] at hc; omega⟩
    simp only [jwfObj, Bool.and_eq_true] at hwf
    cases tl with
    | nil =>
      rw [show serObjTail (.cons k v .nil) ++ rest =
          '"' :: (k.data.flatMap escChar ++ '"' :: (':' :: (serVal v ++ '\x7d' :: rest)))
        from by simp [serObjTail, serStr], parseObjEntries_succ_quote,
        parseStrBody_flatMap]
      simp [skipWs, List.dropWhile_cons, jsonWs, strMk_data, jobjToList,
        rtVal v f ('\x7d' :: rest) hwf.1 (by simp [costObj] at hc; omega) rfl]
    | cons k2 v2 tl2 =>
      rw [show serObjTail (.cons k v (.cons k2 v2 tl2)) ++ rest =
          '"' :: (k.data.flatMap escChar ++ '"' ::
            (':' :: (serVal v ++ ',' :: (serObjTail (.cons k2 v2 tl2) ++ rest))))
        from by simp [serObjTail, serStr], parseObjEntries_succ_quote,
        parseStrBody_flatMap]
      simp [skipWs, List.dropWhile_cons, jsonWs, strMk_data, jobjToList,
        rtVal v f (',' :: (serObjTail (.cons k2 v2 tl2) ++ rest)) hwf.1
          (by simp [costObj] at hc; omega) rfl,
        rtObj (.cons k2 v2 tl2) f rest hwf.2 (by simp [costObj] at hc ⊢; omega) hr (by simp)]
end

mutual
theorem costVal_le : ∀ v : JValue, costVal v ≤ (serVal v).length
  | .jnull => by simp [costVal, serVal]
  | .jbool true => by simp [costVal, serVal]
  | .jbool false => by simp [costVal, serVal]
  | .jstr s => by simp [costVal, serVal, serStr]
  | .jnum i => by
    obtain ⟨c, cs, hic, _⟩ := intChars_head i
    simp [costVal, serVal, hic]
  | .jarr xs => by
    have := costArr_le xs
    simp only [costVal, serVal, List.length_cons]
    omega
  | .jobj kvs => by
    have := costObj_le kvs
    simp only [costVal, serVal, List.length_cons]
    omega
theorem costArr_le : ∀ xs : JArr, costArr xs ≤ (serArrTail xs).length
  | .nil => by simp [costArr, serArrTail]
  | .cons v .nil => by
    have := costVal_le v
    simp only [costArr, serArrTail, List.length_append, List.length_cons, List.length_nil]
    omega
  | .cons v (.cons y tl) => by
    have h1 := costVal_le v
    have h2 := costArr_le (.cons y tl)
    have e1 : costArr (JArr.cons v (JArr.cons y tl)) =
        1 + costVal v + costArr (JArr.cons y tl) := rfl
    have e2 : (serArrTail (JArr.cons v (JArr.cons y tl))).length =
        (serVal v).length + 1 + (serArrTail (JArr.cons y tl)).length := by
      simp only [serArrTail, List.length_append, List.length_cons]
      omega
    omega
theorem costObj_le : ∀ kvs : JObj, costObj kvs ≤ (serObjTail kvs).length
  | .nil => by simp [costObj, serObjTail]
  | .cons k v .nil => by
    have := costVal_le v
    simp only [costObj, serObjTail, List.length_append, List.length_cons, List.length_nil]
    omega
  | .cons k v (.cons k2 v2 tl) => by
    have h1 := costVal_le v
    have h2 := costObj_le (.cons k2 v2 tl)
    have e1 : costObj (JObj.cons k v (JObj.cons k2 v2 tl)) =
        1 + costVal v + costObj (JObj.cons k2 v2 tl) := rfl
    have e2 : (serObjTail (JObj.cons k v (JObj.cons k2 v2 tl))).length =
        (serStr k).length + 1 + (serVal v).length + 1 +
          (serObjTail (JObj.cons k2 v2 tl)).length := by
      simp only [serObjTail, List.length_append, List.length_cons]
      omega
    omega
end

theorem parseJSONText_serVal (v : JValue) (h : jwf v = true) :
    parseJSONText ⟨serVal v⟩ = .ok v := by
  unfold parseJSONText
  have hdata : (⟨serVal v⟩ : String).data = serVal v := rfl
  rw [hdata]
  have hfuel : costVal v ≤ 2 * (serVal v).length + 4 := by
    have := costVal_le v
    omega
  have := rtVal v (2 * (serVal v).length + 4) [] h hfuel rfl
  rw [List.append_nil] at this
  rw [this]
  simp [skipWs]

theorem jobjToList_jobjOfList : ∀ l : List (String × JValue), jobjToList (jobjOfList l) = l
  | [] => rfl
  | (k, v) :: tl => by simp [jobjOfList, jobjToList, jobjToList_jobjOfList tl]

theorem deepSortEntries_eq_map : ∀ kvs : JObj,
    deepSortEntries kvs = (jobjToList kvs).map (fun p => (p.1, deepSortKeys p.2))
  | .nil => rfl
  | .cons k v tl => by simp [deepSortEntries, jobjToList, deepSortEntries_eq_map tl]

theorem jwfObj_jobjOfList : ∀ l : List (String × JValue),
    jwfObj (jobjOfList l) = l.all (fun p => jwf p.2)
  | [] => rfl
  | (k, v) :: tl => by simp [jobjOfList, jwfObj, jwfObj_jobjOfList tl]

theorem objKeys_jobjOfList (l : List (String × JValue)) :
    objKeys (jobjOfList l) = l.map Prod.fst := by
  rw [objKeys_eq_map_fst, jobjToList_jobjOfList]

mutual
theorem dsIdem : ∀ v : JValue, deepSortKeys (deepSortKeys v) = deepSortKeys v
  | .jnull => rfl
  | .jbool _ => rfl
  | .jnum _ => rfl
  | .jstr _ => rfl
  | .jarr xs => by
    rw [show deepSortKeys (.jarr xs) = .jarr (deepSortArr xs) from rfl,
      show deepSortKeys (.jarr (deepSortArr xs)) = .jarr (deepSortArr (deepSortArr xs)) from rfl,
      dsIdemArr xs]
  | .jobj kvs => by
    have hsorted : List.Sorted pairLe (List.insertionSort pairLe (deepSortEntries kvs)) :=
      List.sorted_insertionSort pairLe (deepSortEntries kvs)
    have hfix : ∀ p ∈ List.insertionSort pairLe (deepSortEntries kvs),
        (fun q => (q.1, deepSortKeys q.2)) p = p := by
      intro p hp
      have hmem : p ∈ deepSortEntries kvs :=
        (List.perm_insertionSort pairLe (deepSortEntries kvs)).mem_iff.mp hp
      have := dsIdemEntries kvs p hmem
      simp [this]
    rw [show deepSortKeys (.jobj kvs) =
      .jobj (jobjOfList (List.insertionSort pairLe (deepSortEntries kvs))) from rfl]
    rw [show deepSortKeys (.jobj (jobjOfList (List.insertionSort pairLe (deepSortEntries kvs)))) =
      .jobj (jobjOfList (List.insertionSort pairLe (deepSortEntries
        (jobjOfList (List.insertionSort pairLe (deepSortEntries kvs)))))) from rfl]
    rw [deepSortEntries_eq_map, jobjToList_jobjOfList]
    rw [List.map_congr_left hfix]
    have hid : List.map (fun a : String × JValue => a)
        (List.insertionSort pairLe (deepSortEntries kvs)) =
        List.insertionSort pairLe (deepSortEntries kvs) := by simp
    rw [hid, hsorted.insertionSort_eq]
theorem dsIdemArr : ∀ xs : JArr, deepSortArr (deepSortArr xs) = deepSortArr xs
  | .nil => rfl
  | .cons v tl => by
    rw [show deepSortArr (.cons v tl) = .cons (deepSortKeys v) (deepSortArr tl) from rfl,
      show deepSortArr (.cons (deepSortKeys v) (deepSortArr tl)) =
        .cons (deepSortKeys (deepSortKeys v)) (deepSortArr (deepSortArr tl)) from rfl,
      dsIdem v, dsIdemArr tl]
theorem dsIdemEntries : ∀ kvs : JObj, ∀ p ∈ deepSortEntries kvs, deepSortKeys p.2 = p.2
  | .cons k v tl => by
    intro p hp
    rw [show deepSortEntries (.cons k v tl) =
      (k, deepSortKeys v) :: deepSortEntries tl from rfl] at hp
    rcases List.mem_cons.mp hp with rfl | hmem
    · exact dsIdem v
    · exact dsIdemEntries tl p hmem
  | .nil => by intro p hp; cases hp
end

mutual
theorem dsWf : ∀ v : JValue, jwf v = true → jwf (deepSortKeys v) = true
  | .jnull => fun h => h
  | .jbool _ => fun h => h
  | .jnum _ => fun h => h
  | .jstr _ => fun h => h
  | .jarr xs => by
    intro h
    rw [show deepSortKeys (.jarr xs) = .jarr (deepSortArr xs) from rfl]
    rw [show jwf (JValue.jarr (deepSortArr xs)) = jwfArr (deepSortArr xs) from rfl]
    exact dsWfArr xs (by simpa [jwf] using h)
  | .jobj kvs => by
    intro h
    simp only [jwf, Bool.and_eq_true] at h
    rw [show deepSortKeys (.jobj kvs) =
      .jobj (jobjOfList (List.insertionSort pairLe (deepSortEntries kvs))) from rfl]
    rw [show jwf (JValue.jobj (jobjOfList (List.insertionSort pairLe (deepSortEntries kvs)))) =
      (keysNodup (objKeys (jobjOfList (List.insertionSort pairLe (deepSortEntries kvs)))) &&
        jwfObj (jobjOfList (List.insertionSort pairLe (deepSortEntries kvs)))) from rfl]
    rw [Bool.and_eq_true]
    constructor
    · rw [objKeys_jobjOfList, keysNodup_iff]
      have hperm : ((List.insertionSort pairLe (deepSortEntries kvs)).map Prod.fst).Perm
          ((deepSortEntries kvs).map Prod.fst) :=
        (List.perm_insertionSort pairLe (deepSortEntries kvs)).map Prod.fst
      have hkeys : (deepSortEntries kvs).map Prod.fst = objKeys kvs := by
        rw [deepSortEntries_eq_map, objKeys_eq_map_fst, List.map_map]
        rfl
      have hnd : (objKeys kvs).Nodup := (keysNodup_iff _).mp h.1
      rw [← hkeys] at hnd
      exact (hperm.symm.nodup hnd)
    · rw [jwfObj_jobjOfList, List.all_eq_true]
      intro p hp
      have hmem : p ∈ deepSortEntries kvs :=
        (List.perm_insertionSort pairLe (deepSortEntries kvs)).mem_iff.mp hp
      exact dsWfEntries kvs h.2 p hmem
theorem dsWfArr : ∀ xs : JArr, jwfArr xs = true → jwfArr (deepSortArr xs) = true
  | .nil => fun h => h
  | .cons v tl => by
    intro h
    simp only [jwfArr, Bool.and_eq_true] at h
    rw [show deepSortArr (.cons v tl) = .cons (deepSortKeys v) (deepSortArr tl) from rfl]
    rw [show jwfArr (JArr.cons (deepSortKeys v) (deepSortArr tl)) =
      (jwf (deepSortKeys v) && jwfArr (deepSortArr tl)) from rfl]
    rw [Bool.and_eq_true]
    exact ⟨dsWf v h.1, dsWfArr tl h.2⟩
theorem dsWfEntries : ∀ kvs : JObj, jwfObj kvs = true →
    ∀ p ∈ deepSortEntries kvs, jwf p.2 = true
  | .cons k v tl => by
    intro h p hp
    simp only [jwfObj, Bool.and_eq_true] at h
    rw [show deepSortEntries (.cons k v tl) =
      (k, deepSortKeys v) :: deepSortEntries tl from rfl] at hp
    rcases List.mem_cons.mp hp with rfl | hmem
    · exact dsWf v h.1
    · exact dsWfEntries tl h.2 p hmem
  | .nil => by intro _ p hp; cases hp
end

theorem deepSortObj_eq (o : JObj) :
    JValue.jobj (deepSortObj o) = deepSortKeys (.jobj o) := rfl

theorem pelemDS_idem (e : PElem) : pelemDS (pelemDS e) = pelemDS e := by
  cases e with
  | none => rfl
  | some o =>
    have h := dsIdem (.jobj o)
    rw [← deepSortObj_eq, ← deepSortObj_eq] at h
    simp only [JValue.jobj.injEq] at h
    simp [pelemDS, h]

theorem pelemWf_pelemDS (e : PElem) (h : pelemWf e = true) : pelemWf (pelemDS e) = true := by
  cases e with
  | none => rfl
  | some o =>
    have := dsWf (.jobj o) h
    rw [← deepSortObj_eq] at this
    exact this

theorem serPElem_eq (e : PElem) : serPElem e = serVal (jvOfPElemDS e) := by
  cases e with
  | none => rfl
  | some o => rfl

theorem jwf_jvOfPElemDS (e : PElem) (h : pelemWf e = true) : jwf (jvOfPElemDS e) = true := by
  cases e with
  | none => rfl
  | some o =>
    have := dsWf (.jobj o) h
    rw [← deepSortObj_eq] at this
    exact this

theorem serPElems_arrTail : ∀ es : List PElem,
    serPElems es ++ [']'] = serArrTail (jarrOfList (es.map jvOfPElemDS))
  | [] => rfl
  | [e] => by
    simp [serPElems, serPElem_eq, jarrOfList, serArrTail]
  | e :: e2 :: tl => by
    rw [show serPElems (e :: e2 :: tl) = serPElem e ++ ',' :: serPElems (e2 :: tl) from rfl]
    rw [show (e :: e2 :: tl).map jvOfPElemDS =
      jvOfPElemDS e :: (e2 :: tl).map jvOfPElemDS from rfl]
    rw [show jarrOfList (jvOfPElemDS e :: (e2 :: tl).map jvOfPElemDS) =
      .cons (jvOfPElemDS e) (jarrOfList ((e2 :: tl).map jvOfPElemDS)) from rfl]
    have htl : jarrOfList ((e2 :: tl).map jvOfPElemDS) ≠ .nil := by
      simp [jarrOfList]
    cases hj : jarrOfList ((e2 :: tl).map jvOfPElemDS) with
    | nil => exact absurd hj htl
    | cons y ytl =>
      rw [show serArrTail (.cons (jvOfPElemDS e) (.cons y ytl)) =
        serVal (jvOfPElemDS e) ++ ',' :: serArrTail (.cons y ytl) from rfl]
      rw [← hj, ← serPElems_arrTail (e2 :: tl), serPElem_eq]
      simp

theorem serPluginsVal_some (es : List PElem) :
    serPluginsVal (some es) = serVal (.jarr (jarrOfList (es.map jvOfPElemDS))) := by
  rw [show serPluginsVal (some es) = '[' :: (serPElems es ++ [']']) from by
    simp [serPluginsVal]]
  rw [serPElems_arrTail]
  rfl

theorem jwfArr_jarrOfList : ∀ es : List PElem, (∀ e ∈ es, pelemWf e = true) →
    jwfArr (jarrOfList (es.map jvOfPElemDS)) = true
  | [] => fun _ => rfl
  | e :: tl => by
    intro h
    rw [show (e :: tl).map jvOfPElemDS = jvOfPElemDS e :: tl.map jvOfPElemDS from rfl]
    rw [show jarrOfList (jvOfPElemDS e :: tl.map jvOfPElemDS) =
      .cons (jvOfPElemDS e) (jarrOfList (tl.map jvOfPElemDS)) from rfl]
    rw [show jwfArr (.cons (jvOfPElemDS e) (jarrOfList (tl.map jvOfPElemDS))) =
      (jwf (jvOfPElemDS e) && jwfArr (jarrOfList (tl.map jvOfPElemDS))) from rfl]
    rw [Bool.and_eq_true]
    exact ⟨jwf_jvOfPElemDS e (h e (by simp)),
      jwfArr_jarrOfList tl (fun x hx => h x (by simp [hx]))⟩

theorem pelemsOfArr_map : ∀ es : List PElem,
    pelemsOfArr (jarrOfList (es.map jvOfPElemDS)) = .ok (es.map pelemDS)
  | [] => rfl
  | e :: tl => by
    cases e with
    | none =>
      rw [show (none :: tl).map jvOfPElemDS = JValue.jnull :: tl.map jvOfPElemDS from rfl]
      rw [show jarrOfList (JValue.jnull :: tl.map jvOfPElemDS) =
        .cons .jnull (jarrOfList (tl.map jvOfPElemDS)) from rfl]
      rw [show pelemsOfArr (.cons .jnull (jarrOfList (tl.map jvOfPElemDS))) =
        (match pelemsOfArr (jarrOfList (tl.map jvOfPElemDS)) with
         | .ok es => .ok (none :: es)
         | .error e => .error e) from rfl]
      rw [pelemsOfArr_map tl]
      rfl
    | some o =>
      rw [show (some o :: tl).map jvOfPElemDS =
        JValue.jobj (deepSortObj o) :: tl.map jvOfPElemDS from rfl]
      rw [show jarrOfList (JValue.jobj (deepSortObj o) :: tl.map jvOfPElemDS) =
        .cons (.jobj (deepSortObj o)) (jarrOfList (tl.map jvOfPElemDS)) from rfl]
      rw [show pelemsOfArr (.cons (.jobj (deepSortObj o)) (jarrOfList (tl.map jvOfPElemDS))) =
        (match pelemsOfArr (jarrOfList (tl.map jvOfPElemDS)) with
         | .ok es => .ok (some (deepSortObj o) :: es)
         | .error e => .error e) from rfl]
      rw [pelemsOfArr_map tl]
      rfl

theorem parsePluginsTop_ser (v : Option (List PElem))
    (hwf : ∀ e ∈ v.getD [], pelemWf e = true) :
    parsePluginsTop ⟨serPluginsVal v⟩ = .ok (v.map (List.map pelemDS)) := by
  cases v with
  | none =>
    show parsePluginsTop ⟨serVal .jnull⟩ = .ok none
    unfold parsePluginsTop
    rw [parseJSONText_serVal .jnull rfl]
    rfl
  | some es =>
    unfold parsePluginsTop
    rw [show (⟨serPluginsVal (some es)⟩ : String) =
      ⟨serVal (.jarr (jarrOfList (es.map jvOfPElemDS)))⟩ from by rw [serPluginsVal_some]]
    rw [parseJSONText_serVal _ (by
      rw [show jwf (JValue.jarr (jarrOfList (es.map jvOfPElemDS))) =
        jwfArr (jarrOfList (es.map jvOfPElemDS)) from rfl]
      exact jwfArr_jarrOfList es (by simpa using hwf))]
    show pluginsOfJValue (.jarr (jarrOfList (es.map jvOfPElemDS))) =
      .ok (Option.map (List.map pelemDS) (some es))
    rw [show pluginsOfJValue (.jarr (jarrOfList (es.map jvOfPElemDS))) =
      (match pelemsOfArr (jarrOfList (es.map jvOfPElemDS)) with
       | .ok l => .ok (some l)
       | .error e => .error e) from rfl]
    rw [pelemsOfArr_map es]
    rfl

theorem canonicalisePluginJSON_ser (v : Option (List PElem))
    (hwf : ∀ e ∈ v.getD [], pelemWf e = true) :
    canonicalisePluginJSON ⟨serPluginsVal v⟩ =
      .ok ⟨serPluginsVal ((v.map (List.map pelemDS)).map sortPluginElems)⟩ := by
  unfold canonicalisePluginJSON
  rw [parsePluginsTop_ser v hwf]

theorem marshalPlugins_nil : marshalPlugins [] = ⟨serPluginsVal none⟩ := by decide

theorem marshalPlugins_cons (p : Plugin) (ps : List Plugin) :
    marshalPlugins (p :: ps) = ⟨serPluginsVal (some ((p :: ps).map pelemOfPlugin))⟩ := rfl

theorem pelemWf_pelemOfPlugin (p : Plugin)
    (h : ∀ o, p.Params = some o → jwf (.jobj o) = true) :
    pelemWf (pelemOfPlugin p) = true := by
  cases hp : p.Params with
  | none =>
    simp [pelemOfPlugin, hp, pelemWf, jwf, keysNodup, objKeys, jwfObj]
  | some o =>
    have hthis := h o hp
    simp only [jwf, Bool.and_eq_true] at hthis
    simp [pelemOfPlugin, hp, pelemWf, jwf, keysNodup, objKeys, jwfObj, hthis.1, hthis.2]

theorem sortPluginElems_sorted (es : List PElem) :
    List.Sorted pelemLe (sortPluginElems es) :=
  List.sorted_insertionSort pelemLe es

theorem sortPluginElems_perm (es : List PElem) : (sortPluginElems es).Perm es :=
  List.perm_insertionSort pelemLe es

theorem sortPluginElems_of_sorted {es : List PElem} (h : List.Sorted pelemLe es) :
    sortPluginElems es = es :=
  h.insertionSort_eq

theorem canonicalise_marshal_idem (ps : List Plugin)
    (hps : ∀ p ∈ ps, ∀ o, p.Params = some o → jwf (.jobj o) = true)
    (s : String) (h : canonicalisePluginJSON (marshalPlugins ps) = .ok s) :
    canonicalisePluginJSON s = .ok s := by
  cases ps with
  | nil =>
    rw [marshalPlugins_nil] at h
    rw [canonicalisePluginJSON_ser none (by intro e he; cases he)] at h
    have hs : s = ⟨serPluginsVal none⟩ := by
      cases h
      rfl
    subst hs
    rw [canonicalisePluginJSON_ser none (by intro e he; cases he)]
    rfl
  | cons p ptl =>
    rw [marshalPlugins_cons] at h
    set l := (p :: ptl).map pelemOfPlugin with hl
    have hlwf : ∀ e ∈ l, pelemWf e = true := by
      intro e he
      rw [hl] at he
      obtain ⟨q, hq, rfl⟩ := List.mem_map.mp he
      exact pelemWf_pelemOfPlugin q (hps q hq)
    rw [canonicalisePluginJSON_ser (some l) (by simpa using hlwf)] at h
    have hs : s = ⟨serPluginsVal (some (sortPluginElems (l.map pelemDS)))⟩ := by
      cases h
      rfl
    subst hs
    set q := sortPluginElems (l.map pelemDS) with hq
    have hqwf : ∀ e ∈ q, pelemWf e = true := by
      intro e he
      have : e ∈ l.map pelemDS := (sortPluginElems_perm _).mem_iff.mp (hq ▸ he)
      obtain ⟨e0, he0, rfl⟩ := List.mem_map.mp this
      exact pelemWf_pelemDS e0 (hlwf e0 he0)
    rw [canonicalisePluginJSON_ser (some q) (by simpa using hqwf)]
    have hmapds : q.map pelemDS = q := by
      have : ∀ e ∈ q, pelemDS e = e := by
        intro e he
        have : e ∈ l.map pelemDS := (sortPluginElems_perm _).mem_iff.mp (hq ▸ he)
        obtain ⟨e0, _, rfl⟩ := List.mem_map.mp this
        exact pelemDS_idem e0
      calc q.map pelemDS = q.map (fun a => a) := List.map_congr_left this
        _ = q := by simp
    have hsorted : List.Sorted pelemLe q := hq ▸ sortPluginElems_sorted _
    rw [show (Option.map (List.map pelemDS) (some q)).map sortPluginElems =
      some (sortPluginElems (q.map pelemDS)) from rfl]
    rw [hmapds, sortPluginElems_of_sorted hsorted]

theorem parsePluginItems_wf : ∀ (items : JArr) (ps : List Plugin),
    jwfArr items = true → parsePluginItems items = .ok ps →
    ∀ p ∈ ps, ∀ o, p.Params = some o → jwf (.jobj o) = true
  | .nil, ps => by
    intro _ h
    cases h
    intro p hp
    cases hp
  | .cons v tl, ps => by
    intro hwf h
    simp only [jwfArr, Bool.and_eq_true] at hwf
    rw [show parsePluginItems (.cons v tl) =
      (match NewPluginFromReference v with
       | .error e => .error e
       | .ok p =>
         match parsePluginItems tl with
         | .ok ps => .ok (p :: ps)
         | .error e => .error e) from rfl] at h
    cases hnp : NewPluginFromReference v with
    | error e => rw [hnp] at h; cases h
    | ok p0 =>
      rw [hnp] at h
      cases htl : parsePluginItems tl with
      | error e => rw [htl] at h; cases h
      | ok ps0 =>
        rw [htl] at h
        cases h
        intro p hp o ho
        rcases List.mem_cons.mp hp with rfl | hmem
        · -- the head plugin's params come from the declaration element
          cases v with
          | jstr s => cases hnp; cases ho
          | jobj kvs =>
            cases kvs with
            | nil => cases hnp
            | cons k sv ktl =>
              cases hnp
              cases sv with
              | jobj o2 =>
                rw [show settingsParams (.jobj o2) = some o2 from rfl] at ho
                cases ho
                simp only [jwf, jwfObj, Bool.and_eq_true] at hwf
                rw [show jwf (.jobj o) = (keysNodup (objKeys o) && jwfObj o) from rfl,
                  Bool.and_eq_true]
                exact hwf.1.2.1
              | jnull => rw [show settingsParams .jnull = none from rfl] at ho; cases ho
              | jbool b => rw [show settingsParams (.jbool b) = none from rfl] at ho; cases ho
              | jnum n => rw [show settingsParams (.jnum n) = none from rfl] at ho; cases ho
              | jstr s2 => rw [show settingsParams (.jstr s2) = none from rfl] at ho; cases ho
              | jarr xs2 =>
                rw [show settingsParams (.jarr xs2) = none from rfl] at ho; cases ho
          | jnull => cases hnp
          | jbool b => cases hnp
          | jnum n => cases hnp
          | jarr xs => cases hnp
        · exact parsePluginItems_wf tl ps0 hwf.2 htl p hmem o ho

theorem parsePluginObjEntries_wf : ∀ (kvs : JObj) (ps : List Plugin),
    jwfObj kvs = true → parsePluginObjEntries kvs = .ok ps →
    ∀ p ∈ ps, ∀ o, p.Params = some o → jwf (.jobj o) = true
  | .nil, ps => by
    intro _ h
    cases h
    intro p hp
    cases hp
  | .cons k v tl, ps => by
    intro hwf h
    simp only [jwfObj, Bool.and_eq_true] at hwf
    rw [show parsePluginObjEntries (.cons k v tl) =
      (match NewPluginFromReference (.jobj (.cons k v .nil)) with
       | .error e => .error e
       | .ok p =>
         match parsePluginObjEntries tl with
         | .ok ps => .ok (p :: ps)
         | .error e => .error e) from rfl] at h
    have hnp : NewPluginFromReference (.jobj (.cons k v .nil)) = .ok ⟨k, settingsParams v⟩ := rfl
    rw [hnp] at h
    cases htl : parsePluginObjEntries tl with
    | error e => rw [htl] at h; cases h
    | ok ps0 =>
      rw [htl] at h
      cases h
      intro p hp o ho
      rcases List.mem_cons.mp hp with rfl | hmem
      · cases v with
        | jobj o2 =>
          rw [show settingsParams (.jobj o2) = some o2 from rfl] at ho
          cases ho
          exact hwf.1
        | jnull => rw [show settingsParams .jnull = none from rfl] at ho; cases ho
        | jbool b => rw [show settingsParams (.jbool b) = none from rfl] at ho; cases ho
        | jnum n => rw [show settingsParams (.jnum n) = none from rfl] at ho; cases ho
        | jstr s2 => rw [show settingsParams (.jstr s2) = none from rfl] at ho; cases ho
        | jarr xs2 => rw [show settingsParams (.jarr xs2) = none from rfl] at ho; cases ho
      · exact parsePluginObjEntries_wf tl ps0 hwf.2 htl p hmem o ho

theorem canonicalise_extract_idem (pv : JValue) (hwf : jwf pv = true) (s : String)
    (h : extractPlugins pv = .ok s) : canonicalisePluginJSON s = .ok s := by
  cases pv with
  | jarr items =>
    rw [show extractPlugins (.jarr items) =
      (match parsePluginItems items with
       | .error e => .error e
       | .ok ps => canonicalisePluginJSON (marshalPlugins ps)) from rfl] at h
    cases hpi : parsePluginItems items with
    | error e => rw [hpi] at h; cases h
    | ok ps =>
      rw [hpi] at h
      exact canonicalise_marshal_idem ps
        (parsePluginItems_wf items ps (by simpa [jwf] using hwf) hpi) s h
  | jobj kvs =>
    rw [show extractPlugins (.jobj kvs) =
      (match parsePluginObjEntries kvs with
       | .error e => .error e
       | .ok ps => canonicalisePluginJSON (marshalPlugins ps)) from rfl] at h
    cases hpi : parsePluginObjEntries kvs with
    | error e => rw [hpi] at h; cases h
    | ok ps =>
      rw [hpi] at h
      refine canonicalise_marshal_idem ps ?_ s h
      refine parsePluginObjEntries_wf kvs ps ?_ hpi
      simp only [jwf, Bool.and_eq_true] at hwf
      exact hwf.2
  | jnull => cases h
  | jbool b => cases h
  | jnum n => cases h
  | jstr str => cases h

theorem parsePluginItems_singletons : ∀ kvs : List (String × JValue),
    parsePluginItems (jarrOfList (kvs.map (fun kv => JValue.jobj (.cons kv.1 kv.2 .nil)))) =
      .ok (kvs.map (fun kv => ⟨kv.1, settingsParams kv.2⟩))
  | [] => rfl
  | (k, v) :: tl => by
    rw [show ((k, v) :: tl).map (fun kv => JValue.jobj (.cons kv.1 kv.2 .nil)) =
      JValue.jobj (.cons k v .nil) ::
        tl.map (fun kv => JValue.jobj (.cons kv.1 kv.2 .nil)) from rfl]
    rw [show jarrOfList (JValue.jobj (.cons k v .nil) ::
        tl.map (fun kv => JValue.jobj (.cons kv.1 kv.2 .nil))) =
      .cons (.jobj (.cons k v .nil))
        (jarrOfList (tl.map (fun kv => JValue.jobj (.cons kv.1 kv.2 .nil)))) from rfl]
    rw [show parsePluginItems (.cons (.jobj (.cons k v .nil))
        (jarrOfList (tl.map (fun kv => JValue.jobj (.cons kv.1 kv.2 .nil))))) =
      (match parsePluginItems
          (jarrOfList (tl.map (fun kv => JValue.jobj (.cons kv.1 kv.2 .nil)))) with
       | .ok ps => .ok ((⟨k, settingsParams v⟩ : Plugin) :: ps)
       | .error e => .error e) from rfl]
    rw [parsePluginItems_singletons tl]
    rfl

theorem parsePluginObjEntries_map : ∀ kvs : List (String × JValue),
    parsePluginObjEntries (jobjOfList kvs) =
      .ok (kvs.map (fun kv => ⟨kv.1, settingsParams kv.2⟩))
  | [] => rfl
  | (k, v) :: tl => by
    rw [show jobjOfList ((k, v) :: tl) = .cons k v (jobjOfList tl) from rfl]
    rw [show parsePluginObjEntries (.cons k v (jobjOfList tl)) =
      (match parsePluginObjEntries (jobjOfList tl) with
       | .ok ps => .ok ((⟨k, settingsParams v⟩ : Plugin) :: ps)
       | .error e => .error e) from rfl]
    rw [parsePluginObjEntries_map tl]
    rfl

theorem pelemKey_pelemDS_pelemOfPlugin (p : Plugin) :
    pelemKey (pelemDS (pelemOfPlugin p)) = pluginRepository p.Name := by
  cases p with
  | mk nm params =>
    cases params with
    | none => rfl
    | some o => rfl

theorem pairwise_ltEq_of_sorted_nodup {es : List PElem}
    (hs : List.Sorted pelemLe es) (hnd : (es.map pelemKey).Nodup) :
    List.Sorted pelemLtEq es := by
  have hne : es.Pairwise (fun a b => pelemKey a ≠ pelemKey b) :=
    List.pairwise_map.mp hnd
  have := hs.and hne
  exact this.imp (fun {a b} h => by
    refine Or.inl ⟨h.1, fun hba => ?_⟩
    exact h.2 (pelemLe_key_eq h.1 hba))

theorem sortPluginElems_perm_congr {es₁ es₂ : List PElem}
    (hperm : es₁.Perm es₂) (hnd : (es₁.map pelemKey).Nodup) :
    sortPluginElems es₁ = sortPluginElems es₂ := by
  have hperm2 : (sortPluginElems es₁).Perm (sortPluginElems es₂) :=
    ((sortPluginElems_perm es₁).trans hperm).trans (sortPluginElems_perm es₂).symm
  have hnd1 : ((sortPluginElems es₁).map pelemKey).Nodup :=
    ((sortPluginElems_perm es₁).map pelemKey).symm.nodup hnd
  have hnd2 : ((sortPluginElems es₂).map pelemKey).Nodup :=
    (hperm2.map pelemKey).nodup hnd1
  exact List.eq_of_perm_of_sorted hperm2
    (pairwise_ltEq_of_sorted_nodup (sortPluginElems_sorted es₁) hnd1)
    (pairwise_ltEq_of_sorted_nodup (sortPluginElems_sorted es₂) hnd2)

theorem settingsParams_eq_some {v : JValue} {o : JObj}
    (h : settingsParams v = some o) : v = .jobj o := by
  cases v <;> simp [settingsParams] at h
  rw [h]

theorem extractPlugins_arr_eq (kvs : List (String × JValue)) :
    extractPlugins (.jarr (jarrOfList
        (kvs.map (fun kv => JValue.jobj (.cons kv.1 kv.2 .nil))))) =
      canonicalisePluginJSON (marshalPlugins
        (kvs.map (fun kv => ⟨kv.1, settingsParams kv.2⟩))) := by
  rw [show extractPlugins (.jarr (jarrOfList
      (kvs.map (fun kv => JValue.jobj (.cons kv.1 kv.2 .nil))))) =
    (match parsePluginItems (jarrOfList
        (kvs.map (fun kv => JValue.jobj (.cons kv.1 kv.2 .nil)))) with
     | .error e => .error e
     | .ok ps => canonicalisePluginJSON (marshalPlugins ps)) from rfl]
  rw [parsePluginItems_singletons]

theorem extractPlugins_obj_eq (kvs : List (String × JValue)) :
    extractPlugins (.jobj (jobjOfList kvs)) =
      canonicalisePluginJSON (marshalPlugins
        (kvs.map (fun kv => ⟨kv.1, settingsParams kv.2⟩))) := by
  rw [show extractPlugins (.jobj (jobjOfList kvs)) =
    (match parsePluginObjEntries (jobjOfList kvs) with
     | .error e => .error e
     | .ok ps => canonicalisePluginJSON (marshalPlugins ps)) from rfl]
  rw [parsePluginObjEntries_map]

theorem canonicalise_marshal_comm (ps₁ ps₂ : List Plugin)
    (hperm : ps₁.Perm ps₂)
    (hnd : (ps₁.map (fun p => pluginRepository p.Name)).Nodup)
    (hwf₁ : ∀ p ∈ ps₁, ∀ o, p.Params = some o → jwf (.jobj o) = true) :
    canonicalisePluginJSON (marshalPlugins ps₁) =
      canonicalisePluginJSON (marshalPlugins ps₂) := by
  cases ps₁ with
  | nil =>
    have h2 : ps₂ = [] := hperm.symm.eq_nil
    rw [h2]
  | cons p tl =>
    cases ps₂ with
    | nil =>
      have h2 : p :: tl = [] := hperm.eq_nil
      cases h2
    | cons q tl2 =>
      rw [marshalPlugins_cons, marshalPlugins_cons]
      have hwf₂ : ∀ r ∈ (q :: tl2), ∀ o, r.Params = some o → jwf (.jobj o) = true :=
        fun r hr => hwf₁ r (hperm.symm.subset hr)
      have hl₁ : ∀ e ∈ ((p :: tl).map pelemOfPlugin), pelemWf e = true := by
        intro e he
        obtain ⟨r, hr, rfl⟩ := List.mem_map.mp he
        exact pelemWf_pelemOfPlugin r (hwf₁ r hr)
      have hl₂ : ∀ e ∈ ((q :: tl2).map pelemOfPlugin), pelemWf e = true := by
        intro e he
        obtain ⟨r, hr, rfl⟩ := List.mem_map.mp he
        exact pelemWf_pelemOfPlugin r (hwf₂ r hr)
      rw [canonicalisePluginJSON_ser (some ((p :: tl).map pelemOfPlugin)) (by simpa using hl₁)]
      rw [canonicalisePluginJSON_ser (some ((q :: tl2).map pelemOfPlugin)) (by simpa using hl₂)]
      rw [show (((some ((p :: tl).map pelemOfPlugin)).map (List.map pelemDS)).map sortPluginElems) =
        some (sortPluginElems (((p :: tl).map pelemOfPlugin).map pelemDS)) from rfl]
      rw [show (((some ((q :: tl2).map pelemOfPlugin)).map (List.map pelemDS)).map sortPluginElems) =
        some (sortPluginElems (((q :: tl2).map pelemOfPlugin).map pelemDS)) from rfl]
      have hkeys : ((((p :: tl).map pelemOfPlugin).map pelemDS).map pelemKey) =
          (p :: tl).map (fun r => pluginRepository r.Name) := by
        simp only [List.map_map]
        exact List.map_congr_left (fun a _ => pelemKey_pelemDS_pelemOfPlugin a)
      have hsort : sortPluginElems (((p :: tl).map pelemOfPlugin).map pelemDS) =
          sortPluginElems (((q :: tl2).map pelemOfPlugin).map pelemDS) := by
        apply sortPluginElems_perm_congr
        · exact (hperm.map pelemOfPlugin).map pelemDS
        · rw [hkeys]
          exact hnd
      rw [hsort]

theorem signDataStr_ne_empty (genv : GoEnv) (secret command pluginJSON : String) :
    signDataStr genv secret command pluginJSON ≠ "" := by
  intro h
  have h2 := congrArg String.length h
  rw [show signDataStr genv secret command pluginJSON =
    "sha256:" ++ hmacSha256Hex secret (goTrimSpace command ++ genv.buildID ++ pluginJSON)
      from rfl, String.length_append] at h2
  have h7 : ("sha256:" : String).length = 7 := by decide
  have h0 : ("" : String).length = 0 := by decide
  rw [h7, h0] at h2
  omega

theorem objLookup_objSet_self : ∀ (kvs : JObj) (k : String) (v : JValue),
    objLookup (objSet kvs k v) k = some v
  | .nil, k, v => by simp [objSet, objLookup]
  | .cons k' v' tl, k, v => by
    by_cases h : k' = k
    · simp [objSet, objLookup, h]
    · simp [objSet, objLookup, h, objLookup_objSet_self tl k v]

theorem objLookup_objSet_ne : ∀ (kvs : JObj) (k k2 : String) (v : JValue), k2 ≠ k →
    objLookup (objSet kvs k v) k2 = objLookup kvs k2
  | .nil, k, k2, v, hne => by
    simp [objSet, objLookup, show ¬ k = k2 from fun hh => hne hh.symm]
  | .cons k' v' tl, k, k2, v, hne => by
    by_cases h : k' = k
    · subst h
      simp [objSet, objLookup, show ¬ k' = k2 from fun hh => hne (hh.symm.trans rfl)]
    · by_cases h2 : k' = k2
      · subst h2
        simp [objSet, objLookup, h]
      · simp [objSet, objLookup, h, h2, objLookup_objSet_ne tl k k2 v hne]

theorem jarrToList_jarrAppend : ∀ (xs : JArr) (v : JValue),
    jarrToList (jarrAppend xs v) = jarrToList xs ++ [v]
  | .nil, v => rfl
  | .cons h tl, v => by
    simp [jarrAppend, jarrToList, jarrToList_jarrAppend tl v]

theorem reflStrings_map_jstr : ∀ l : List String,
    reflStrings (jarrOfList (l.map JValue.jstr)) = l
  | [] => rfl
  | s :: tl => by
    simp [jarrOfList, reflStrings, reflValueString, reflStrings_map_jstr tl]

theorem goContainsAny_iff (s chars : String) :
    goContainsAny s chars = true ↔ ∃ c ∈ s.data, c ∈ chars.data := by
  simp only [goContainsAny, List.any_eq_true]
  constructor
  · rintro ⟨c, hc, hm⟩
    exact ⟨c, hc, List.elem_iff.mp hm⟩
  · rintro ⟨c, hc, hm⟩
    exact ⟨c, hc, List.elem_iff.mpr hm⟩

/-- C1: `Verify` consults the unsigned-command allow list exactly when no
signature and no plugin JSON are supplied and a command is present; in
that case the outcome is decided by the validator alone (success iff it
answers `true`, otherwise the missing-signature error) and is independent
of the signing function (no digest is computed); whenever plugin JSON or
a signature is supplied the validator is never consulted and verification
recomputes and compares the digest. -/
theorem C1_allow_list_gate
    (vf vf2 : String → Except GoErr Bool)
    (sf sf2 : String → String → Except GoErr Signature)
    (command pluginJSON : String) (expected : Signature) :
    (expected = "" ∧ pluginJSON = "" ∧ command ≠ "" →
      verifyWith vf sf command pluginJSON expected =
        (match vf command with
         | .error e => .error e
         | .ok true => .ok ()
         | .ok false => .error missingSignatureError) ∧
      verifyWith vf sf command pluginJSON expected =
        verifyWith vf sf2 command pluginJSON expected) ∧
    (pluginJSON ≠ "" ∨ expected ≠ "" →
      verifyWith vf sf command pluginJSON expected =
        recomputeAndCompare sf command pluginJSON expected ∧
      verifyWith vf sf command pluginJSON expected =
        verifyWith vf2 sf command pluginJSON expected) := by
  constructor
  · intro h
    constructor
    · unfold verifyWith
      rw [if_pos h]
    · unfold verifyWith
      rw [if_pos h, if_pos h]
  · intro h
    have hneg : ¬(expected = "" ∧ pluginJSON = "" ∧ command ≠ "") := by
      rintro ⟨h1, h2, h3⟩
      cases h with
      | inl hp => exact hp h2
      | inr he => exact he h1
    constructor
    · unfold verifyWith
      rw [if_neg hneg]
    · unfold verifyWith
      rw [if_neg hneg, if_neg hneg]

theorem C1_allow_list_gate_witness :
    ("" : Signature) = "" ∧ ("" : String) = "" ∧
    ("buildkite-agent pipeline upload" : String) ≠ "" ∧
    verifyWith (validatorFor sampleEnv sampleSigner) (signerFor sampleEnv sampleSigner)
      "buildkite-agent pipeline upload" "" "" =
      (match validatorFor sampleEnv sampleSigner "buildkite-agent pipeline upload" with
       | .error e => .error e
       | .ok true => .ok ()
       | .ok false => .error missingSignatureError) :=
  ⟨rfl, rfl, by decide,
    ((C1_allow_list_gate (validatorFor sampleEnv sampleSigner)
      (validatorFor sampleEnv sampleSigner) (signerFor sampleEnv sampleSigner)
      (signerFor sampleEnv sampleSigner)
      "buildkite-agent pipeline upload" "" "").1 ⟨rfl, rfl, by decide⟩).1⟩

/-- C2: `IsUnsignedCommandOk` answers `true` exactly when the command
starts with a recognized upload invocation (a tool name followed by
" upload", or the vanilla `buildkite-agent pipeline upload`) and contains
no character of the platform-selected shell metacharacter set; so the
recognized upload strings pass, and any string containing a metacharacter
fails even when an allowed prefix matches. -/
theorem C2_allow_list_precision (genv : GoEnv) (command : String) :
    IsUnsignedCommandOk genv command = .ok true ↔
      (((getToolNames genv).any
          (fun t => goHasPrefixStr command (t ++ " upload")) = true ∨
        goHasPrefixStr command "buildkite-agent pipeline upload" = true) ∧
       ∀ c ∈ command.data, c ∉ (platformSpecialChars genv).data) := by
  cases hu : isUploadCommand genv command with
  | false =>
    simp only [IsUnsignedCommandOk, hu, Bool.not_false, if_true]
    constructor
    · intro h
      cases h
    · rintro ⟨hpre, -⟩
      unfold isUploadCommand at hu
      rw [Bool.or_eq_false_iff] at hu
      cases hpre with
      | inl h1 => rw [h1] at hu; cases hu.1
      | inr h2 => rw [h2] at hu; cases hu.2
  | true =>
    cases hs : hasSpecialShellChars genv command with
    | true =>
      simp only [IsUnsignedCommandOk, hu, Bool.not_true, if_false, hs]
      constructor
      · intro h
        cases h
      · rintro ⟨-, hall⟩
        obtain ⟨c, hc, hm⟩ := (goContainsAny_iff command (platformSpecialChars genv)).mp hs
        exact absurd hm (hall c hc)
    | false =>
      simp only [IsUnsignedCommandOk, hu, Bool.not_true, if_false, hs]
      constructor
      · intro _
        constructor
        · unfold isUploadCommand at hu
          rw [Bool.or_eq_true] at hu
          exact hu
        · intro c hc hm
          have h2 : goContainsAny command (platformSpecialChars genv) = true :=
            (goContainsAny_iff command (platformSpecialChars genv)).mpr ⟨c, hc, hm⟩
          unfold hasSpecialShellChars at hs
          rw [h2] at hs
          cases hs
      · intro _
        rfl

theorem C2_allow_list_precision_witness :
    IsUnsignedCommandOk sampleEnv "buildkite-agent pipeline upload" = .ok true :=
  (C2_allow_list_precision sampleEnv "buildkite-agent pipeline upload").mpr
    ⟨Or.inr (by decide), by decide⟩

/-- C3: round trip — for a non-empty command and any well-formed plugin
declaration, the signature computed at signing time over the extracted
command and the canonicalised plugin JSON is accepted by `Verify` when
presented with that same command, canonical plugin JSON and signature
under the same secret and build id. -/
theorem C3_sign_verify_roundtrip (genv : GoEnv) (secret command : String)
    (pv : JValue) (pj : String)
    (_hcmd : command ≠ "")
    (hwf : jwf pv = true)
    (hex : extractPlugins pv = .ok pj) :
    Verify genv (NewSharedSecretSigner secret) command pj
      (signDataStr genv secret command pj) = .ok () := by
  unfold Verify verifyWith
  rw [if_neg (fun hcon => signDataStr_ne_empty genv secret command pj hcon.1)]
  unfold recomputeAndCompare
  by_cases hpj : pj = ""
  · subst hpj
    simp [signerFor, NewSharedSecretSigner, signData]
  · rw [if_pos hpj, canonicalise_extract_idem pv hwf pj hex]
    simp [signerFor, NewSharedSecretSigner, signData]

set_option maxHeartbeats 2000000 in
theorem C3_sign_verify_roundtrip_witness :
    ("echo hi" : String) ≠ "" ∧
    jwf (.jarr (.cons (.jstr "docker#v1.2.3") .nil)) = true ∧
    extractPlugins (.jarr (.cons (.jstr "docker#v1.2.3") .nil)) =
      .ok "[\x7b\"github.com/buildkite-plugins/docker-buildkite-plugin#v1.2.3\":null\x7d]" ∧
    Verify sampleEnv (NewSharedSecretSigner "secret-llamas") "echo hi"
      "[\x7b\"github.com/buildkite-plugins/docker-buildkite-plugin#v1.2.3\":null\x7d]"
      (signDataStr sampleEnv "secret-llamas" "echo hi"
        "[\x7b\"github.com/buildkite-plugins/docker-buildkite-plugin#v1.2.3\":null\x7d]") =
      .ok () :=
  ⟨by decide, by decide, by decide,
    C3_sign_verify_roundtrip sampleEnv "secret-llamas" "echo hi"
      (.jarr (.cons (.jstr "docker#v1.2.3") .nil))
      "[\x7b\"github.com/buildkite-plugins/docker-buildkite-plugin#v1.2.3\":null\x7d]"
      (by decide) (by decide) (by decide)⟩

/-- C4 (amended): when the qualified plugin repositories are pairwise
distinct, expressing a plugin set as an array of single-key mappings and
expressing it as one multi-key mapping canonicalize to byte-identical
JSON, whatever the relative order of the entries; the canonical form
sorts the single-entry mappings by qualified reference. (With duplicate
qualified references the outputs depend on the original order, so the
unconditional claim fails — see the counterexample.) -/
theorem C4_canonicalisation_commutes (kvs₁ kvs₂ : List (String × JValue))
    (hperm : kvs₁.Perm kvs₂)
    (hnd : (kvs₁.map (fun kv => pluginRepository kv.1)).Nodup)
    (hwf : ∀ kv ∈ kvs₁, jwf kv.2 = true) :
    extractPlugins (.jarr (jarrOfList
        (kvs₁.map (fun kv => JValue.jobj (.cons kv.1 kv.2 .nil))))) =
      extractPlugins (.jobj (jobjOfList kvs₂)) := by
  rw [extractPlugins_arr_eq, extractPlugins_obj_eq]
  apply canonicalise_marshal_comm
  · exact hperm.map _
  · rw [List.map_map]
    exact hnd
  · intro p hp o hpo
    obtain ⟨kv, hkv, rfl⟩ := List.mem_map.mp hp
    have hv : kv.2 = .jobj o := settingsParams_eq_some hpo
    have h2 := hwf kv hkv
    rw [hv] at h2
    exact h2

theorem C4_canonicalisation_commutes_witness :
    ([("docker#v1", JValue.jnull),
      ("libx/liby#v2", JValue.jobj (.cons "a" (.jbool true) .nil))].Perm
      [("libx/liby#v2", JValue.jobj (.cons "a" (.jbool true) .nil)),
       ("docker#v1", JValue.jnull)]) ∧
    extractPlugins (.jarr (jarrOfList
        ([("docker#v1", JValue.jnull),
          ("libx/liby#v2", JValue.jobj (.cons "a" (.jbool true) .nil))].map
          (fun kv => JValue.jobj (.cons kv.1 kv.2 .nil))))) =
      extractPlugins (.jobj (jobjOfList
        [("libx/liby#v2", JValue.jobj (.cons "a" (.jbool true) .nil)),
         ("docker#v1", JValue.jnull)])) :=
  ⟨List.Perm.swap _ _ _,
    C4_canonicalisation_commutes _ _ (List.Perm.swap _ _ _) (by decide) (by decide)⟩

/-- C4 counterexample: `docker#v1` and `buildkite-plugins/docker#v1` both
qualify to `github.com/buildkite-plugins/docker-buildkite-plugin#v1`, so
they tie under the canonical sort; the array form listing them one way
and the object form listing the same two entries the other way
canonicalize to different byte sequences, refuting byte-identity
"regardless of the original ordering of entries". -/
theorem C4_canonicalisation_counterexample :
    extractPlugins (.jarr (.cons (.jobj (.cons "docker#v1" .jnull .nil))
        (.cons (.jobj (.cons "buildkite-plugins/docker#v1"
          (.jobj (.cons "a" (.jbool true) .nil)) .nil)) .nil))) ≠
      extractPlugins (.jobj (.cons "buildkite-plugins/docker#v1"
        (.jobj (.cons "a" (.jbool true) .nil))
        (.cons "docker#v1" .jnull .nil))) := by decide

/-- C5 (code bug): a pipeline whose group step contains a nested step that
fails to sign (here `command: true`, an unsupported command type) does not
make `Sign` return that error: the code reads
`signedGroup.(map[string]any)["steps"]` before checking the returned
error, so the nil interface makes the type assertion panic — modelled as
a crash — instead of aborting cleanly with the error. -/
theorem C5_group_error_crash :
    Sign sampleEnv sampleSigner
      (.jobj (.cons "steps" (.jarr (.cons (.jobj (.cons "group" (.jstr "g")
        (.cons "steps" (.jarr (.cons (.jobj (.cons "command" (.jbool true) .nil))
          .nil)) .nil))) .nil)) .nil)) =
      .error (.crash "interface conversion: interface is nil, not map[string]interface") := by
  decide

/-- C6: `addSignature` injects the signature into the step's environment:
a missing env becomes a mapping holding only `STEP_SIGNATURE`; a mapping
env is rebuilt with every existing entry kept and `STEP_SIGNATURE` set
(overwriting any previous value under that key); a `KEY=VALUE` sequence
env gets `STEP_SIGNATURE=<sig>` appended with the existing order
preserved; any other env shape is an unknown-environment-type error; and
a signed non-group step keeps every field other than `env` at its
original value. -/
theorem C6_signature_injection (sig : Signature) :
    (addSignature .jnull sig =
      .ok (.jobj (.cons stepSignatureEnv (.jstr sig) .nil))) ∧
    (∀ kvs : JObj,
      addSignature (.jobj kvs) sig =
        .ok (.jobj (objSet kvs stepSignatureEnv (.jstr sig))) ∧
      objLookup (objSet kvs stepSignatureEnv (.jstr sig)) stepSignatureEnv =
        some (.jstr sig) ∧
      ∀ k, k ≠ stepSignatureEnv →
        objLookup (objSet kvs stepSignatureEnv (.jstr sig)) k = objLookup kvs k) ∧
    (∀ xs : JArr,
      addSignature (.jarr xs) sig =
        .ok (.jarr (jarrAppend xs (.jstr (stepSignatureEnv ++ "=" ++ sig)))) ∧
      jarrToList (jarrAppend xs (.jstr (stepSignatureEnv ++ "=" ++ sig))) =
        jarrToList xs ++ [.jstr (stepSignatureEnv ++ "=" ++ sig)]) ∧
    (∀ s : String, addSignature (.jstr s) sig =
      .error (.fail ("unknown environment type " ++ goTypeName (.jstr s)))) ∧
    (∀ (fuel : Nat) (genv : GoEnv) (s : SharedSecretSigner) (kvs out : JObj),
      (objLookup kvs "group").isSome = false →
      signStepF (fuel + 1) genv s (.jobj kvs) = .ok (.jobj out) →
      (out = kvs ∨ ∃ newEnv, out = objSet kvs "env" newEnv) ∧
      ∀ k, k ≠ "env" → objLookup out k = objLookup kvs k) := by
  refine ⟨rfl, ?_, ?_, fun s => rfl, ?_⟩
  · intro kvs
    exact ⟨rfl, objLookup_objSet_self kvs stepSignatureEnv (.jstr sig),
      fun k hk => objLookup_objSet_ne kvs stepSignatureEnv k (.jstr sig) hk⟩
  · intro xs
    exact ⟨rfl, jarrToList_jarrAppend xs _⟩
  · intro fuel genv s kvs out hg hok
    simp only [signStepF, hg, Bool.false_eq_true, if_false] at hok
    have hshape : out = kvs ∨ ∃ newEnv, out = objSet kvs "env" newEnv := by
      split at hok
      · cases hok
      · split at hok
        · cases hok
          exact Or.inl rfl
        · split at hok
          · cases hok
          · split at hok
            · cases hok
            · split at hok
              · cases hok
              · cases hok
                exact Or.inr ⟨_, rfl⟩
    refine ⟨hshape, ?_⟩
    intro k hk
    cases hshape with
    | inl h => rw [h]
    | inr h =>
      obtain ⟨newEnv, rfl⟩ := h
      exact objLookup_objSet_ne kvs "env" k newEnv hk

theorem C6_signature_injection_witness :
    addSignature .jnull "sig0" =
      .ok (.jobj (.cons stepSignatureEnv (.jstr "sig0") .nil)) :=
  (C6_signature_injection "sig0").1

/-- C7 (amended): a non-group step whose raw `command`/`commands` value is
the empty string and which carries no `plugins` key is returned by
`signStep` completely unmodified — no env entry and no `STEP_SIGNATURE`
are added.  (The code compares the *raw* command value with the empty
string, not the extracted command, so the claim's generalisation to
"whenever the extracted command is empty" fails — see the
counterexample.) -/
theorem C7_inert_step (fuel : Nat) (genv : GoEnv) (s : SharedSecretSigner)
    (kvs : JObj)
    (hg : (objLookup kvs "group").isSome = false)
    (hc : rawCommandOf kvs = .jstr "")
    (hp : objLookup kvs "plugins" = none) :
    signStepF (fuel + 1) genv s (.jobj kvs) = .ok (.jobj kvs) := by
  simp only [signStepF, hg, Bool.false_eq_true, if_false, hp]
  simp [hc]

theorem C7_inert_step_witness :
    (objLookup (.cons "label" (.jstr "x") .nil) "group").isSome = false ∧
    rawCommandOf (.cons "label" (.jstr "x") .nil) = .jstr "" ∧
    objLookup (.cons "label" (.jstr "x") .nil) "plugins" = none ∧
    signStepF 1 sampleEnv sampleSigner (.jobj (.cons "label" (.jstr "x") .nil)) =
      .ok (.jobj (.cons "label" (.jstr "x") .nil)) :=
  ⟨by decide, by decide, by decide,
    C7_inert_step 0 sampleEnv sampleSigner (.cons "label" (.jstr "x") .nil)
      (by decide) (by decide) (by decide)⟩

/-- C7 counterexample: the step with `command: []` has an empty extracted
command and no plugins, yet `signStep` does not return it unmodified; it
signs it and injects a `STEP_SIGNATURE` env entry, because the inertness
test compares the raw `command` value — here an empty sequence, not the
empty string — rather than the extracted command. -/
theorem C7_inert_step_counterexample :
    extractCommand (rawCommandOf (.cons "command" (.jarr .nil) .nil)) = .ok "" ∧
    objLookup (.cons "command" (.jarr .nil) .nil) "plugins" = none ∧
    signStepF 5 sampleEnv sampleSigner
        (.jobj (.cons "command" (.jarr .nil) .nil)) ≠
      .ok (.jobj (.cons "command" (.jarr .nil) .nil)) := by decide

/-- C8 (amended): `extractCommand` returns a string value unchanged and
turns a sequence into its elements rendered by `reflect.Value.String()`
joined with newlines — in particular a sequence of strings joins the
strings in their original order, while a non-string element becomes a
`<T Value>` placeholder rather than an error; only non-sequence,
non-string values (mappings, numbers, booleans, null) produce the
unexpected-type error. -/
theorem C8_extract_command (s : String) (xs : JArr) (l : List String)
    (kvs : JObj) (n : Int) (b : Bool) :
    extractCommand (.jstr s) = .ok s ∧
    extractCommand (.jarr xs) = .ok ⟨joinNL (reflStrings xs)⟩ ∧
    extractCommand (.jarr (jarrOfList (l.map JValue.jstr))) = .ok ⟨joinNL l⟩ ∧
    extractCommand (.jobj kvs) =
      .error (.fail ("unexpected type for command: " ++ goTypeName (.jobj kvs))) ∧
    extractCommand (.jnum n) =
      .error (.fail ("unexpected type for command: " ++ goTypeName (.jnum n))) ∧
    extractCommand (.jbool b) =
      .error (.fail ("unexpected type for command: " ++ goTypeName (.jbool b))) ∧
    extractCommand .jnull =
      .error (.fail ("unexpected type for command: " ++ goTypeName .jnull)) := by
  refine ⟨rfl, rfl, ?_, rfl, rfl, rfl, rfl⟩
  rw [show extractCommand (.jarr (jarrOfList (l.map JValue.jstr))) =
    .ok ⟨joinNL (reflStrings (jarrOfList (l.map JValue.jstr)))⟩ from rfl,
    reflStrings_map_jstr l]

theorem C8_extract_command_witness :
    extractCommand (.jstr "echo hi") = .ok "echo hi" :=
  (C8_extract_command "echo hi" .nil [] .nil 0 true).1

/-- C8 counterexample: a sequence containing the number 42 does not make
`extractCommand` fail with an unsupported-command-type error; it succeeds
and renders the element as the reflect placeholder `<float64 Value>`. -/
theorem C8_extract_command_counterexample :
    extractCommand (.jarr (.cons (.jnum 42) .nil)) = .ok "<float64 Value>" := by
  decide

/-- C9: for a step carrying a `group` key, `signStep` recursively signs
the sub-pipeline built from the step's `steps` value and, on success,
returns the step with only its `steps` field replaced by the signed
steps; every other field — `command`, `commands`, `plugins`, `env` — is
passed through verbatim, so no `STEP_SIGNATURE` is added to the group
step's own env. -/
theorem C9_group_passthrough (fuel : Nat) (genv : GoEnv)
    (s : SharedSecretSigner) (kvs : JObj) (sg : JValue)
    (hg : (objLookup kvs "group").isSome = true)
    (hok : signF fuel genv s
      (.jobj (.cons "steps" ((objLookup kvs "steps").getD .jnull) .nil)) = .ok sg) :
    signStepF (fuel + 1) genv s (.jobj kvs) =
      .ok (.jobj (objSet kvs "steps" ((jvalueSteps sg).getD .jnull))) ∧
    ∀ k, k ≠ "steps" →
      objLookup (objSet kvs "steps" ((jvalueSteps sg).getD .jnull)) k =
        objLookup kvs k := by
  constructor
  · simp only [signStepF, hg, if_true]
    rw [hok]
  · intro k hk
    exact objLookup_objSet_ne kvs "steps" k _ hk

theorem C9_group_passthrough_witness :
    ((objLookup (.cons "group" (.jstr "g") .nil) "group").isSome = true) ∧
    signF 4 sampleEnv sampleSigner
      (.jobj (.cons "steps"
        ((objLookup (JObj.cons "group" (.jstr "g") .nil) "steps").getD .jnull) .nil)) =
      .ok (.jobj (.cons "steps" .jnull .nil)) ∧
    signStepF 5 sampleEnv sampleSigner (.jobj (.cons "group" (.jstr "g") .nil)) =
      .ok (.jobj (objSet (JObj.cons "group" (.jstr "g") .nil) "steps"
        ((jvalueSteps (.jobj (.cons "steps" .jnull .nil))).getD .jnull))) :=
  ⟨by decide, by decide,
    (C9_group_passthrough 4 sampleEnv sampleSigner
      (.cons "group" (.jstr "g") .nil) (.jobj (.cons "steps" .jnull .nil))
      (by decide) (by decide)).1⟩

/-- C10: an array-syntax plugins entry that is a mapping with two or more
key/value pairs contributes exactly one of its pairs (the ranged-first
entry of the decoded map — the spine head in this model) to the plugin
reference, with no error; the remaining pairs are dropped and leave no
trace in the canonical plugin JSON, hence none in the signature computed
over it. -/
theorem C10_extra_pairs_dropped (k : String) (v : JValue) (rest : JObj)
    (tl : JArr) :
    NewPluginFromReference (.jobj (.cons k v rest)) = .ok ⟨k, settingsParams v⟩ ∧
    extractPlugins (.jarr (.cons (.jobj (.cons k v rest)) tl)) =
      extractPlugins (.jarr (.cons (.jobj (.cons k v .nil)) tl)) :=
  ⟨rfl, rfl⟩

theorem C10_extra_pairs_dropped_witness :
    NewPluginFromReference (.jobj (.cons "docker#v1" .jnull
        (.cons "extra" (.jbool true) .nil))) =
      .ok ⟨"docker#v1", none⟩ :=
  (C10_extra_pairs_dropped "docker#v1" .jnull
    (.cons "extra" (.jbool true) .nil) .nil).1
